import Mathlib

/-!
Verification of the iulia optimiser core (name disambiguation and full
function inlining) of this repository.

The repository excerpt contains the `FullInliner` header
(`libjulia/optimiser/FullInliner.h`, declaring `NameDispenser`, `FullInliner`
and `BodyCopier`, with the leaf visitor cases defined inline) and the
Disambiguator unit tests (`test/libjulia/Disambiguator.cpp`).  The bodies of
`Disambiguator`, `NameDispenser::newName`, `FullInliner` and `BodyCopier`
are not part of the excerpt, so those operations are modelled from the
specification; every such definition is marked `Modelled from the spec:` in
its doc comment.  The AST node kinds follow the data model of the spec
(the iulia `Statement` variant).
-/

namespace Solidity

/-! ### Decimal rendering of suffix integers

`Modelled from the spec:` fresh names are `prefix + "_" + k` with `k` a
positive integer rendered in decimal (the implementation of
`NameDispenser::newName` is outside the excerpt; it renders `k` the way
`std::to_string` does).  The renderer is fuel-based so that it is structural
and computes by kernel reduction. -/

/-- One decimal digit as a character. -/
def digitChar : Nat → Char
  | 0 => '0'
  | 1 => '1'
  | 2 => '2'
  | 3 => '3'
  | 4 => '4'
  | 5 => '5'
  | 6 => '6'
  | 7 => '7'
  | 8 => '8'
  | 9 => '9'
  | _ => '?'

/-- Decimal digits of `n`, least significant first; `fuel` bounds the
recursion depth (`fuel ≥ n` is always enough). -/
def digitsRevFuel : Nat → Nat → List Nat
  | _, 0 => []
  | n, fuel + 1 => if n = 0 then [] else n % 10 :: digitsRevFuel (n / 10) fuel

/-- Decimal digits of `n`, least significant first. -/
def digitsRev (n : Nat) : List Nat := digitsRevFuel n n

/-- Value of a least-significant-first digit list. -/
def ofDigitsRev : List Nat → Nat
  | [] => 0
  | d :: ds => d + 10 * ofDigitsRev ds

/-- Decimal string of a natural number (as `std::to_string` renders it). -/
def decStr (n : Nat) : String := String.mk (((digitsRev n).map digitChar).reverse)

theorem digitsRevFuel_congr : ∀ f g n, n ≤ f → n ≤ g →
    digitsRevFuel n f = digitsRevFuel n g := by
  intro f
  induction f with
  | zero =>
    intro g n hf _
    interval_cases n
    cases g <;> simp [digitsRevFuel]
  | succ f ih =>
    intro g n hf hg
    cases g with
    | zero =>
      interval_cases n
      simp [digitsRevFuel]
    | succ g =>
      by_cases hn : n = 0
      · simp [digitsRevFuel, hn]
      · have hdiv : n / 10 < n := Nat.div_lt_self (Nat.pos_of_ne_zero hn) (by omega)
        have h1 : n / 10 ≤ f := by omega
        have h2 : n / 10 ≤ g := by omega
        simp [digitsRevFuel, hn, ih g (n / 10) h1 h2]

theorem ofDigitsRev_digitsRevFuel : ∀ f n, n ≤ f →
    ofDigitsRev (digitsRevFuel n f) = n := by
  intro f
  induction f with
  | zero =>
    intro n hf
    interval_cases n
    simp [digitsRevFuel, ofDigitsRev]
  | succ f ih =>
    intro n hf
    by_cases hn : n = 0
    · simp [digitsRevFuel, hn, ofDigitsRev]
    · have hdiv : n / 10 < n := Nat.div_lt_self (Nat.pos_of_ne_zero hn) (by omega)
      have h1 : n / 10 ≤ f := by omega
      simp only [digitsRevFuel, hn, if_false, ofDigitsRev, ih (n / 10) h1]
      omega

theorem ofDigitsRev_digitsRev (n : Nat) : ofDigitsRev (digitsRev n) = n :=
  ofDigitsRev_digitsRevFuel n n (le_refl n)

theorem digitsRev_injective : Function.Injective digitsRev := by
  intro a b h
  have := ofDigitsRev_digitsRev a
  rw [h, ofDigitsRev_digitsRev b] at this
  omega

theorem digitsRevFuel_lt_ten : ∀ f n d, d ∈ digitsRevFuel n f → d < 10 := by
  intro f
  induction f with
  | zero => intro n d h; simp [digitsRevFuel] at h
  | succ f ih =>
    intro n d h
    by_cases hn : n = 0
    · simp [digitsRevFuel, hn] at h
    · simp only [digitsRevFuel, hn, if_false, List.mem_cons] at h
      rcases h with h | h
      · omega
      · exact ih (n / 10) d h

theorem digitChar_inj_lt : ∀ a b : Nat, a < 10 → b < 10 → digitChar a = digitChar b → a = b := by
  intro a b ha hb h
  interval_cases a <;> interval_cases b <;> revert h <;> decide

theorem map_digitChar_inj : ∀ l1 l2 : List Nat, (∀ d ∈ l1, d < 10) → (∀ d ∈ l2, d < 10) →
    l1.map digitChar = l2.map digitChar → l1 = l2 := by
  intro l1
  induction l1 with
  | nil => intro l2 _ _ h; cases l2 <;> simp_all
  | cons a l ih =>
    intro l2 h1 h2 h
    cases l2 with
    | nil => simp at h
    | cons b l2' =>
      simp only [List.map_cons, List.cons.injEq] at h
      have ha : a = b := digitChar_inj_lt a b (h1 a (by simp)) (h2 b (by simp)) h.1
      have hl : l = l2' := ih l2' (fun d hd => h1 d (by simp [hd])) (fun d hd => h2 d (by simp [hd])) h.2
      rw [ha, hl]

theorem decStr_injective : Function.Injective decStr := by
  intro a b h
  have hd : ((digitsRev a).map digitChar).reverse = ((digitsRev b).map digitChar).reverse :=
    congrArg String.data h
  have h' := List.reverse_injective hd
  exact digitsRev_injective (map_digitChar_inj _ _
    (fun d hd => digitsRevFuel_lt_ten _ _ d hd)
    (fun d hd => digitsRevFuel_lt_ten _ _ d hd) h')

/-! ### NameDispenser

From `libjulia/optimiser/FullInliner.h`:

    struct NameDispenser
    {
      std::string newName(std::string const& _prefix);
      std::set<std::string> m_usedNames;
    };

The body of `newName` is outside the excerpt.  `Modelled from the spec:`
"If `prefix` is not in the used set, returns it unchanged; otherwise returns
`prefix + "_" + k` for the smallest positive integer `k` such that the
candidate is unused.  The returned name is inserted into the used set before
the call returns."  The used set is modelled as a list with membership as
set containment. -/

/-- The candidate name `pfx + "_" + k`. -/
def candidate (pfx : String) (k : Nat) : String := pfx ++ "_" ++ decStr k

/-- First `k` (starting from `start`, trying at most `fuel` values) whose
candidate is not in `used`. -/
def firstFree (used : List String) (pfx : String) : Nat → Nat → Nat
  | start, 0 => start
  | start, fuel + 1 =>
    if candidate pfx start ∈ used then firstFree used pfx (start + 1) fuel else start

/-- `Modelled from the spec:` `NameDispenser::newName` over an explicit
used-name set: return the prefix unchanged if unused, else the candidate with
the smallest positive suffix; record the returned name as used. -/
def newName (used : List String) (pfx : String) : String × List String :=
  if pfx ∈ used then
    let n := candidate pfx (firstFree used pfx 1 (used.length + 1))
    (n, n :: used)
  else (pfx, pfx :: used)

/-- The `NameDispenser` of `FullInliner.h` (used set modelled as a list). -/
structure NameDispenser where
  m_usedNames : List String

/-- `NameDispenser::newName`, threading the dispenser state explicitly. -/
def NameDispenser.newName (d : NameDispenser) (pfx : String) : String × NameDispenser :=
  let r := Solidity.newName d.m_usedNames pfx
  (r.1, ⟨r.2⟩)

theorem candidate_inj (pfx : String) : ∀ a b : Nat, candidate pfx a = candidate pfx b → a = b := by
  intro a b h
  apply decStr_injective
  have hd := congrArg String.data h
  simp only [candidate, String.data_append] at hd
  have := List.append_cancel_left hd
  exact String.ext this

/-- If every candidate in the fuel window is used, the window injects into
the used list, which is impossible when the window is longer than the number
of distinct used names.  Hence some candidate in the window is free. -/
theorem exists_free_candidate (used : List String) (pfx : String) (start : Nat) :
    ∃ j, start ≤ j ∧ j < start + (used.length + 1) ∧ candidate pfx j ∉ used := by
  by_contra hcon
  push_neg at hcon
  have hsub : ((List.range (used.length + 1)).map (fun i => candidate pfx (start + i))) ⊆ used := by
    intro x hx
    simp only [List.mem_map, List.mem_range] at hx
    obtain ⟨i, hi, rfl⟩ := hx
    exact hcon (start + i) (by omega) (by omega)
  have hnodup : ((List.range (used.length + 1)).map (fun i => candidate pfx (start + i))).Nodup := by
    refine List.Nodup.map ?_ (List.nodup_range _)
    intro a b hab
    have := candidate_inj pfx (start + a) (start + b) hab
    omega
  have hcard : ((List.range (used.length + 1)).map (fun i => candidate pfx (start + i))).toFinset.card ≤ used.toFinset.card :=
    Finset.card_le_card (fun x hx => List.mem_toFinset.mpr (hsub (List.mem_toFinset.mp hx)))
  rw [List.toFinset_card_of_nodup hnodup] at hcard
  have h2 : used.toFinset.card ≤ used.length := used.toFinset_card_le
  simp only [List.length_map, List.length_range] at hcard
  omega

theorem firstFree_spec (used : List String) (pfx : String) :
    ∀ fuel start, (∃ j, start ≤ j ∧ j < start + fuel ∧ candidate pfx j ∉ used) →
    start ≤ firstFree used pfx start fuel ∧
    candidate pfx (firstFree used pfx start fuel) ∉ used ∧
    ∀ j, start ≤ j → j < firstFree used pfx start fuel → candidate pfx j ∈ used := by
  intro fuel
  induction fuel with
  | zero =>
    intro start h
    obtain ⟨j, h1, h2, _⟩ := h
    omega
  | succ fuel ih =>
    intro start h
    by_cases hc : candidate pfx start ∈ used
    · have hex : ∃ j, start + 1 ≤ j ∧ j < (start + 1) + fuel ∧ candidate pfx j ∉ used := by
        obtain ⟨j, h1, h2, h3⟩ := h
        refine ⟨j, ?_, by omega, h3⟩
        rcases Nat.eq_or_lt_of_le h1 with rfl | hlt
        · exact absurd hc h3
        · omega
      have hthis := ih (start + 1) hex
      have heq : firstFree used pfx start (fuel + 1) = firstFree used pfx (start + 1) fuel := by
        simp [firstFree, hc]
      rw [heq]
      refine ⟨by omega, hthis.2.1, ?_⟩
      intro j hj1 hj2
      rcases Nat.eq_or_lt_of_le hj1 with rfl | hlt
      · exact hc
      · exact hthis.2.2 j (by omega) hj2
    · have heq : firstFree used pfx start (fuel + 1) = start := by
        simp [firstFree, hc]
      rw [heq]
      exact ⟨le_refl _, hc, fun j h1 h2 => by omega⟩

/-- The name returned by `newName` is never in the incoming used set. -/
theorem newName_fst_not_mem (used : List String) (pfx : String) :
    (newName used pfx).1 ∉ used := by
  by_cases h : pfx ∈ used
  · have hspec := firstFree_spec used pfx (used.length + 1) 1
      (exists_free_candidate used pfx 1)
    have h1 : (newName used pfx).1 = candidate pfx (firstFree used pfx 1 (used.length + 1)) := by
      simp [newName, h]
    rw [h1]
    exact hspec.2.1
  · have h1 : (newName used pfx).1 = pfx := by simp [newName, h]
    rw [h1]
    exact h

/-- `newName` records the returned name: the outgoing set is the returned
name consed onto the incoming set. -/
theorem newName_snd (used : List String) (pfx : String) :
    (newName used pfx).2 = (newName used pfx).1 :: used := by
  by_cases h : pfx ∈ used <;> simp [newName, h]

/-- If the prefix is unused, `newName` returns it unchanged. -/
theorem newName_of_not_mem (used : List String) (pfx : String) (h : pfx ∉ used) :
    (newName used pfx).1 = pfx := by
  simp [newName, h]

/-- If the prefix is used, `newName` returns the candidate with the smallest
positive suffix `k` whose candidate is unused. -/
theorem newName_of_mem (used : List String) (pfx : String) (h : pfx ∈ used) :
    ∃ k, 1 ≤ k ∧ (newName used pfx).1 = candidate pfx k ∧
      candidate pfx k ∉ used ∧
      ∀ j, 1 ≤ j → j < k → candidate pfx j ∈ used := by
  have hspec := firstFree_spec used pfx (used.length + 1) 1
    (exists_free_candidate used pfx 1)
  refine ⟨firstFree used pfx 1 (used.length + 1), hspec.1, ?_, hspec.2.1, hspec.2.2⟩
  simp [newName, h]

/-! ### AST data model

The node kinds of the iulia AST (spec section 3, the `Statement` variant of
the implementation).  A type annotation accompanies each declared variable
name (`TypedName`).  Statement lists, case lists and the optional default
block are part of the mutual inductive so that all recursion below is
structural. -/

/-- A declared name together with its type annotation. -/
abbrev TypedName := String × String

mutual

/-- Expression node kinds: literals, identifier uses, user function calls
and primitive (opcode) applications. -/
inductive Expr where
  | lit (value ty : String)
  | ident (name : String)
  | funCall (callee : String) (args : ExprList)
  | funInstr (op : String) (args : ExprList)

/-- A list of argument expressions. -/
inductive ExprList where
  | nil
  | cons (e : Expr) (es : ExprList)

end

mutual

/-- Statement node kinds. -/
inductive Stmt where
  | block (ss : StmtList)
  | varDecl (names : List TypedName) (value : Option Expr)
  | assign (targets : List String) (value : Expr)
  | ifStmt (cond : Expr) (body : StmtList)
  | switch (cond : Expr) (cases : CaseList) (dflt : OptBlock)
  | forLoop (ini : StmtList) (cond : Expr) (post : StmtList) (body : StmtList)
  | funDef (name : String) (params rets : List TypedName) (body : StmtList)
  | instr (op : String)
  | label (name : String)
  | stackAssign (name : String)

/-- A list of statements (the contents of a block). -/
inductive StmtList where
  | nil
  | cons (s : Stmt) (ss : StmtList)

/-- Switch cases: a literal (value and type) and a body block each. -/
inductive CaseList where
  | nil
  | cons (v ty : String) (body : StmtList) (rest : CaseList)

/-- An optional default block of a switch. -/
inductive OptBlock where
  | none
  | some (ss : StmtList)

end

/-! ### Scope frames and binding state

`Modelled from the spec:` the Disambiguator (section 4.3) maintains a stack
of scope frames, each mapping an original name to its newly assigned name,
together with the shared used-name set of the dispenser. -/

/-- One scope frame: newest binding first. -/
abbrev Frame := List (String × String)

/-- Disambiguator state: the dispenser's used-name set and the scope
stack (innermost frame first). -/
structure DState where
  used : List String
  scopes : List Frame

/-- First binding of `n` in one frame. -/
def assocFind : Frame → String → Option String
  | [], _ => Option.none
  | (k, v) :: rest, n => if k = n then Option.some v else assocFind rest n

/-- Resolve a name through the scope stack, innermost frame first. -/
def lookupFrames : List Frame → String → Option String
  | [], _ => Option.none
  | fr :: rest, n =>
    match assocFind fr n with
    | Option.some v => Option.some v
    | Option.none => lookupFrames rest n

/-- Translate an identifier use: substitute the assigned name of the
declaration it resolves to; a name bound in no frame (a primitive) is left
untouched. -/
def tr (sc : List Frame) (n : String) : String := (lookupFrames sc n).getD n

/-- Enter a new lexical scope. -/
def pushFrame (s : DState) : DState := ⟨s.used, [] :: s.scopes⟩

/-- Record `orig ↦ new` in the current (innermost) frame. -/
def bindName (s : DState) (orig new : String) : DState :=
  match s.scopes with
  | [] => s
  | fr :: rest => ⟨s.used, ((orig, new) :: fr) :: rest⟩

/-- Issue a fresh name through the shared dispenser. -/
def issue (s : DState) (n : String) : String × DState :=
  let r := newName s.used n
  (r.1, ⟨r.2, s.scopes⟩)

/-- Issue a fresh name for a declaration and bind it in the current frame. -/
def declareName (s : DState) (n : String) : String × DState :=
  let r := issue s n
  (r.1, bindName r.2 n r.1)

/-- Declare a list of typed names left to right. -/
def declareTyped (s : DState) : List TypedName → List TypedName × DState
  | [] => ([], s)
  | (n, ty) :: rest =>
    let r := declareName s n
    let r2 := declareTyped r.2 rest
    ((r.1, ty) :: r2.1, r2.2)

/-- Names of the function definitions directly contained in a statement
list (the functions hoisted at entry to that scope). -/
def dFN : StmtList → List String
  | .nil => []
  | .cons st ss =>
    match st with
    | .funDef f _ _ _ => f :: dFN ss
    | _ => dFN ss

/-- Hoisting: issue and bind a fresh name for every function defined
directly in this scope before its statements are processed (function names
are visible in the whole enclosing scope). -/
def hoistFuns (s : DState) : StmtList → DState
  | .nil => s
  | .cons st ss =>
    match st with
    | .funDef f _ _ _ => hoistFuns (declareName s f).2 ss
    | _ => hoistFuns s ss

mutual

/-- Translate every identifier use of an expression (expressions declare
nothing, so the state passes through unchanged). -/
def disambExpr (sc : List Frame) : Expr → Expr
  | .lit v ty => .lit v ty
  | .ident n => .ident (tr sc n)
  | .funCall f args => .funCall (tr sc f) (disambExprList sc args)
  | .funInstr op args => .funInstr op (disambExprList sc args)

/-- Translate a list of argument expressions. -/
def disambExprList (sc : List Frame) : ExprList → ExprList
  | .nil => .nil
  | .cons e es => .cons (disambExpr sc e) (disambExprList sc es)

end

mutual

/-- `Modelled from the spec:` one program-order traversal of the
Disambiguator (section 4.3; the implementation `Disambiguator.cpp` is
outside the excerpt).  Declarations draw fresh names from the shared
dispenser and bind them in the current frame; uses are translated through
the frame stack; blocks, if-bodies, switch-case bodies and function bodies
open their own scope, while a for loop's init/condition/post/body share a
single scope. -/
def disambStmt (s : DState) : Stmt → Stmt × DState
  | .block ss =>
    let s1 := hoistFuns (pushFrame s) ss
    let r := disambStmts s1 ss
    (.block r.1, ⟨r.2.used, s.scopes⟩)
  | .varDecl names val =>
    let val' := val.map (disambExpr s.scopes)
    let r := declareTyped s names
    (.varDecl r.1 val', r.2)
  | .assign targets val =>
    (.assign (targets.map (tr s.scopes)) (disambExpr s.scopes val), s)
  | .ifStmt c body =>
    let c' := disambExpr s.scopes c
    let s1 := hoistFuns (pushFrame s) body
    let r := disambStmts s1 body
    (.ifStmt c' r.1, ⟨r.2.used, s.scopes⟩)
  | .switch c cases dflt =>
    let c' := disambExpr s.scopes c
    let r1 := disambCases s cases
    let r2 := disambOpt r1.2 dflt
    (.switch c' r1.1 r2.1, r2.2)
  | .forLoop ini c post body =>
    let sA := hoistFuns (pushFrame s) ini
    let rI := disambStmts sA ini
    let c' := disambExpr rI.2.scopes c
    let sB := hoistFuns rI.2 post
    let rP := disambStmts sB post
    let sC := hoistFuns rP.2 body
    let rB := disambStmts sC body
    (.forLoop rI.1 c' rP.1 rB.1, ⟨rB.2.used, s.scopes⟩)
  | .funDef f params rets body =>
    let f' := tr s.scopes f
    let s1 := pushFrame s
    let rp := declareTyped s1 params
    let rr := declareTyped rp.2 rets
    let s4 := hoistFuns (pushFrame rr.2) body
    let rb := disambStmts s4 body
    (.funDef f' rp.1 rr.1 rb.1, ⟨rb.2.used, s.scopes⟩)
  | .instr op => (.instr op, s)
  | .label n =>
    let r := declareName s n
    (.label r.1, r.2)
  | .stackAssign n => (.stackAssign (tr s.scopes n), s)

/-- Process the statements of one scope left to right. -/
def disambStmts (s : DState) : StmtList → StmtList × DState
  | .nil => (.nil, s)
  | .cons st ss =>
    let r1 := disambStmt s st
    let r2 := disambStmts r1.2 ss
    (.cons r1.1 r2.1, r2.2)

/-- Process switch cases; each case body is its own scope. -/
def disambCases (s : DState) : CaseList → CaseList × DState
  | .nil => (.nil, s)
  | .cons v ty body rest =>
    let s1 := hoistFuns (pushFrame s) body
    let rB := disambStmts s1 body
    let rR := disambCases ⟨rB.2.used, s.scopes⟩ rest
    (.cons v ty rB.1 rR.1, rR.2)

/-- Process the optional default block; it is its own scope. -/
def disambOpt (s : DState) : OptBlock → OptBlock × DState
  | .none => (.none, s)
  | .some ss =>
    let s1 := hoistFuns (pushFrame s) ss
    let r := disambStmts s1 ss
    (.some r.1, ⟨r.2.used, s.scopes⟩)

end

/-- `Modelled from the spec:` run the Disambiguator on a program (the
statement list of the top-level block), starting from an empty used-name
set and an empty scope stack. -/
def disambiguate (prog : StmtList) : StmtList :=
  (disambStmts (hoistFuns (pushFrame ⟨[], []⟩) prog) prog).1

mutual

/-- Every name introduced by a declaration in a statement: variable names,
function names, parameters, return names, labels. -/
def declS : Stmt → List String
  | .block ss => declL ss
  | .varDecl names _ => names.map Prod.fst
  | .assign _ _ => []
  | .ifStmt _ body => declL body
  | .switch _ cases dflt => declC cases ++ declO dflt
  | .forLoop ini _ post body => declL ini ++ declL post ++ declL body
  | .funDef f params rets body =>
    f :: (params.map Prod.fst ++ rets.map Prod.fst ++ declL body)
  | .instr _ => []
  | .label n => [n]
  | .stackAssign _ => []

/-- Declared names of a statement list. -/
def declL : StmtList → List String
  | .nil => []
  | .cons st ss => declS st ++ declL ss

/-- Declared names of switch cases. -/
def declC : CaseList → List String
  | .nil => []
  | .cons _ _ body rest => declL body ++ declC rest

/-- Declared names of an optional default block. -/
def declO : OptBlock → List String
  | .none => []
  | .some ss => declL ss

end

/-- Function name declared by a statement (nonempty only for
function definitions). -/
def fN : Stmt → List String
  | .funDef f _ _ _ => [f]
  | _ => []

/-- Variable and label names directly declared by a statement in its
enclosing scope (function parameters and returns live in the function's own
scope and are not listed here). -/
def dVNS : Stmt → List String
  | .varDecl names _ => names.map Prod.fst
  | .label n => [n]
  | _ => []

/-- Variable and label names directly declared by the statements of a
scope. -/
def dVN : StmtList → List String
  | .nil => []
  | .cons st ss => dVNS st ++ dVN ss

theorem dFN_cons (st : Stmt) (ss : StmtList) : dFN (.cons st ss) = fN st ++ dFN ss := by
  cases st <;> rfl

mutual

/-- Well-formedness used by the uniqueness and idempotence arguments: in
every scope, the directly declared names (variables, labels, functions) are
pairwise distinct.  The analyzer guarantees this for valid sources (a name
may not be redeclared in the same scope). -/
def okS : Stmt → Bool
  | .block ss => decide ((dVN ss ++ dFN ss).Nodup) && okL ss
  | .varDecl _ _ => true
  | .assign _ _ => true
  | .ifStmt _ body => decide ((dVN body ++ dFN body).Nodup) && okL body
  | .switch _ cases dflt => okC cases && okO dflt
  | .forLoop ini _ post body =>
    decide ((dVN ini ++ dFN ini).Nodup) && decide ((dVN post ++ dFN post).Nodup) &&
      decide ((dVN body ++ dFN body).Nodup) && okL ini && okL post && okL body
  | .funDef _ _ _ body => decide ((dVN body ++ dFN body).Nodup) && okL body
  | .instr _ => true
  | .label _ => true
  | .stackAssign _ => true

/-- Scope well-formedness of every statement of a list. -/
def okL : StmtList → Bool
  | .nil => true
  | .cons st ss => okS st && okL ss

/-- Scope well-formedness of switch cases. -/
def okC : CaseList → Bool
  | .nil => true
  | .cons _ _ body rest => decide ((dVN body ++ dFN body).Nodup) && okL body && okC rest

/-- Scope well-formedness of the optional default block. -/
def okO : OptBlock → Bool
  | .none => true
  | .some ss => decide ((dVN ss ++ dFN ss).Nodup) && okL ss

end

/-- Well-formedness of a whole program: the top-level scope has no
redeclaration and every nested scope is well formed. -/
def okProg (prog : StmtList) : Bool :=
  decide ((dVN prog ++ dFN prog).Nodup) && okL prog

mutual

/-- Size of a statement (for strong induction). -/
def szS : Stmt → Nat
  | .block ss => szL ss + 1
  | .varDecl _ _ => 1
  | .assign _ _ => 1
  | .ifStmt _ body => szL body + 1
  | .switch _ cases dflt => szC cases + szO dflt + 1
  | .forLoop ini _ post body => szL ini + szL post + szL body + 1
  | .funDef _ _ _ body => szL body + 1
  | .instr _ => 1
  | .label _ => 1
  | .stackAssign _ => 1

/-- Size of a statement list. -/
def szL : StmtList → Nat
  | .nil => 0
  | .cons st ss => szS st + szL ss + 1

/-- Size of a case list. -/
def szC : CaseList → Nat
  | .nil => 0
  | .cons _ _ body rest => szL body + szC rest + 1

/-- Size of an optional block. -/
def szO : OptBlock → Nat
  | .none => 0
  | .some ss => szL ss + 1

end

/-! ### Basic lemmas about the dispenser-threading operations -/

/-- The used-name set only grows, by consing issued names in front. -/
def UsedExt (s s' : DState) : Prop := ∃ I, s'.used = I ++ s.used

theorem usedExt_refl (s : DState) : UsedExt s s := ⟨[], rfl⟩

theorem usedExt_trans {a b c : DState} (h1 : UsedExt a b) (h2 : UsedExt b c) :
    UsedExt a c := by
  obtain ⟨i1, e1⟩ := h1
  obtain ⟨i2, e2⟩ := h2
  exact ⟨i2 ++ i1, by rw [e2, e1, List.append_assoc]⟩

theorem usedExt_subset {a b : DState} (h : UsedExt a b) : a.used ⊆ b.used := by
  obtain ⟨i, e⟩ := h
  rw [e]
  exact List.subset_append_right _ _

theorem declareName_used (s : DState) (n : String) :
    ((declareName s n).2).used = (declareName s n).1 :: s.used := by
  simp only [declareName, issue, bindName]
  cases h : s.scopes <;> simp [newName_snd]

theorem declareName_fresh (s : DState) (n : String) : (declareName s n).1 ∉ s.used := by
  simp only [declareName, issue]
  exact newName_fst_not_mem s.used n

theorem declareName_scopes (s : DState) (n : String) (fr : Frame) (rest : List Frame)
    (h : s.scopes = fr :: rest) :
    ((declareName s n).2).scopes = ((n, (declareName s n).1) :: fr) :: rest := by
  simp [declareName, issue, bindName, h]

theorem declareName_usedExt (s : DState) (n : String) : UsedExt s (declareName s n).2 :=
  ⟨[(declareName s n).1], by rw [declareName_used]; rfl⟩

/-- Specification of `declareTyped`: fresh pairwise-distinct names are
issued, bound in the current frame under the original names, and recorded as
used. -/
theorem declareTyped_spec : ∀ (lst : List TypedName) (s : DState) (fr : Frame)
    (rest : List Frame), s.scopes = fr :: rest →
    UsedExt s (declareTyped s lst).2 ∧
    (∃ entries, (declareTyped s lst).2.scopes = (entries ++ fr) :: rest ∧
      ∀ kv ∈ entries, kv.1 ∈ lst.map Prod.fst) ∧
    ((declareTyped s lst).1.map Prod.fst).Nodup ∧
    (∀ n ∈ (declareTyped s lst).1.map Prod.fst,
      n ∈ (declareTyped s lst).2.used ∧ n ∉ s.used) := by
  intro lst
  induction lst with
  | nil =>
    intro s fr rest h
    refine ⟨usedExt_refl s, ⟨[], by simpa [declareTyped] using h, by simp⟩, ?_, ?_⟩ <;>
      simp [declareTyped]
  | cons nt rest' ih =>
    intro s fr rest h
    obtain ⟨n, ty⟩ := nt
    have hsc1 := declareName_scopes s n fr rest h
    have hused1 := declareName_used s n
    have hfresh1 := declareName_fresh s n
    have hih := ih (declareName s n).2 ((n, (declareName s n).1) :: fr) rest hsc1
    obtain ⟨hext, ⟨entries, hscopes, hkeys⟩, hnodup, hmem⟩ := hih
    have hstep : declareTyped s ((n, ty) :: rest') =
        (((declareName s n).1, ty) :: (declareTyped (declareName s n).2 rest').1,
          (declareTyped (declareName s n).2 rest').2) := by
      simp [declareTyped]
    rw [hstep]
    have hext0 : UsedExt s (declareName s n).2 := declareName_usedExt s n
    refine ⟨usedExt_trans hext0 hext, ?_, ?_, ?_⟩
    · refine ⟨entries ++ [(n, (declareName s n).1)], ?_, ?_⟩
      · rw [hscopes, List.append_assoc]
        rfl
      · intro kv hkv
        rcases List.mem_append.mp hkv with hkv | hkv
        · simp only [List.map_cons, List.mem_cons]
          exact Or.inr (hkeys kv hkv)
        · simp only [List.mem_singleton] at hkv
          subst hkv
          simp
    · simp only [List.map_cons, List.nodup_cons]
      refine ⟨?_, hnodup⟩
      intro hmem'
      have := (hmem _ hmem').2
      rw [hused1] at this
      exact this (List.mem_cons_self _ _)
    · intro m hm
      simp only [List.map_cons, List.mem_cons] at hm
      rcases hm with rfl | hm
      · constructor
        · apply usedExt_subset hext
          rw [hused1]
          exact List.mem_cons_self _ _
        · exact hfresh1
      · refine ⟨(hmem m hm).1, ?_⟩
        intro hmem'
        have := (hmem m hm).2
        rw [hused1] at this
        exact this (List.mem_cons_of_mem _ hmem')

/-- `assocFind` skips entries whose keys all differ from the query. -/
theorem assocFind_append_of_ne (entries fr : Frame) (n : String)
    (h : ∀ kv ∈ entries, kv.1 ≠ n) :
    assocFind (entries ++ fr) n = assocFind fr n := by
  induction entries with
  | nil => rfl
  | cons kv rest ih =>
    obtain ⟨k, v⟩ := kv
    have hk : k ≠ n := h (k, v) (List.mem_cons_self _ _)
    simp only [List.cons_append, assocFind, hk, if_false]
    exact ih (fun kv hkv => h kv (List.mem_cons_of_mem _ hkv))

/-- Lookups are unchanged by frame entries whose keys differ from the
query. -/
theorem lookupFrames_extend (entries fr : Frame) (rest : List Frame) (n : String)
    (h : ∀ kv ∈ entries, kv.1 ≠ n) :
    lookupFrames ((entries ++ fr) :: rest) n = lookupFrames (fr :: rest) n := by
  simp only [lookupFrames, assocFind_append_of_ne entries fr n h]

/-- Length of a statement list. -/
def slen : StmtList → Nat
  | .nil => 0
  | .cons _ ss => slen ss + 1

/-- What function-name hoisting guarantees: a fresh name is issued and
bound for every directly defined function, the issued names are pairwise
distinct, fresh for the incoming used set, and resolvable in the resulting
scopes. -/
def HoistSpec (ss : StmtList) (s : DState) (fr : Frame) (rest : List Frame) : Prop :=
  ∃ (entries : Frame) (ρ : String → String),
    (hoistFuns s ss).scopes = (entries ++ fr) :: rest ∧
    (∀ kv ∈ entries, kv.1 ∈ dFN ss) ∧
    UsedExt s (hoistFuns s ss) ∧
    (∀ f ∈ dFN ss, lookupFrames (hoistFuns s ss).scopes f = Option.some (ρ f) ∧
      ρ f ∈ (hoistFuns s ss).used ∧ ρ f ∉ s.used) ∧
    (∀ f g, f ∈ dFN ss → g ∈ dFN ss → ρ f = ρ g → f = g)

theorem hoist_spec_fuel : ∀ (N : Nat) (ss : StmtList) (s : DState) (fr : Frame)
    (rest : List Frame), slen ss ≤ N → s.scopes = fr :: rest → (dFN ss).Nodup →
    HoistSpec ss s fr rest := by
  intro N
  induction N with
  | zero =>
    intro ss s fr rest hsz h _
    cases ss with
    | nil =>
      exact ⟨[], id, by simpa [hoistFuns] using h, by simp, usedExt_refl s,
        fun f hf => absurd hf (by simp [dFN]), fun f g hf => absurd hf (by simp [dFN])⟩
    | cons st ss =>
      simp [slen] at hsz
  | succ N ih0 =>
    intro ss s fr rest hsz h hnodup
    cases ss with
    | nil =>
      exact ⟨[], id, by simpa [hoistFuns] using h, by simp, usedExt_refl s,
        fun f hf => absurd hf (by simp [dFN]), fun f g hf => absurd hf (by simp [dFN])⟩
    | cons st ss =>
    have ih : ∀ (s : DState) (fr : Frame) (rest : List Frame),
        s.scopes = fr :: rest → (dFN ss).Nodup → HoistSpec ss s fr rest := by
      intro s' fr' rest' h' hn'
      exact ih0 ss s' fr' rest' (by simp [slen] at hsz; omega) h' hn'
    cases st with
    | funDef f params rets body =>
      unfold HoistSpec
      have hstep : hoistFuns s (.cons (.funDef f params rets body) ss) =
          hoistFuns (declareName s f).2 ss := rfl
      have hd : dFN (.cons (.funDef f params rets body) ss) = f :: dFN ss := rfl
      rw [hd] at hnodup
      have hf_notin : f ∉ dFN ss := (List.nodup_cons.mp hnodup).1
      have hnodup' : (dFN ss).Nodup := (List.nodup_cons.mp hnodup).2
      set nf := (declareName s f).1 with hnf
      have hsc1 := declareName_scopes s f fr rest h
      have hused1 := declareName_used s f
      have hfresh1 := declareName_fresh s f
      obtain ⟨entries2, ρ2, hscopes2, hkeys2, hext2, hlook2, hinj2⟩ :=
        ih (declareName s f).2 ((f, nf) :: fr) rest hsc1 hnodup'
      rw [hstep, hd]
      refine ⟨entries2 ++ [(f, nf)], fun g => if g = f then nf else ρ2 g, ?_, ?_, ?_, ?_, ?_⟩
      · rw [hscopes2, List.append_assoc]
        rfl
      · intro kv hkv
        rcases List.mem_append.mp hkv with hkv | hkv
        · exact List.mem_cons_of_mem _ (hkeys2 kv hkv)
        · simp only [List.mem_singleton] at hkv
          subst hkv
          exact List.mem_cons_self _ _
      · exact usedExt_trans (declareName_usedExt s f) hext2
      · intro g hg
        rcases List.mem_cons.mp hg with rfl | hg
        · simp only [if_pos rfl]
          refine ⟨?_, ?_, hfresh1⟩
          · rw [hscopes2]
            have hne : ∀ kv ∈ entries2, kv.1 ≠ g := by
              intro kv hkv hkeq
              exact hf_notin (hkeq ▸ hkeys2 kv hkv)
            rw [lookupFrames_extend entries2 _ rest g hne]
            simp [lookupFrames, assocFind]
          · apply usedExt_subset hext2
            rw [hused1]
            exact List.mem_cons_self _ _
        · have hgne : g ≠ f := fun hgf => hf_notin (hgf ▸ hg)
          simp only [if_neg hgne]
          obtain ⟨hl, hm, hni⟩ := hlook2 g hg
          refine ⟨hl, hm, ?_⟩
          intro hmem
          apply hni
          rw [hused1]
          exact List.mem_cons_of_mem _ hmem
      · intro a b ha hb hab
        have hab' : (if a = f then nf else ρ2 a) = (if b = f then nf else ρ2 b) := hab
        rcases List.mem_cons.mp ha with ha' | ha' <;> rcases List.mem_cons.mp hb with hb' | hb'
        · rw [ha', hb']
        · exfalso
          have hbne : b ≠ f := fun hx => hf_notin (hx ▸ hb')
          rw [if_pos ha', if_neg hbne] at hab'
          have hx := (hlook2 b hb').2.2
          rw [hused1, ← hab'] at hx
          exact hx (List.mem_cons_self _ _)
        · exfalso
          have hane : a ≠ f := fun hx => hf_notin (hx ▸ ha')
          rw [if_neg hane, if_pos hb'] at hab'
          have hx := (hlook2 a ha').2.2
          rw [hused1, hab'] at hx
          exact hx (List.mem_cons_self _ _)
        · have hane : a ≠ f := fun hx => hf_notin (hx ▸ ha')
          have hbne : b ≠ f := fun hx => hf_notin (hx ▸ hb')
          rw [if_neg hane, if_neg hbne] at hab'
          exact hinj2 a b ha' hb' hab'
    | block ss' =>
      exact ih s fr rest h hnodup
    | varDecl names val =>
      exact ih s fr rest h hnodup
    | assign t v =>
      exact ih s fr rest h hnodup
    | ifStmt c body =>
      exact ih s fr rest h hnodup
    | switch c cs d =>
      exact ih s fr rest h hnodup
    | forLoop i c p b =>
      exact ih s fr rest h hnodup
    | instr op =>
      exact ih s fr rest h hnodup
    | label n =>
      exact ih s fr rest h hnodup
    | stackAssign n =>
      exact ih s fr rest h hnodup

theorem hoist_spec (ss : StmtList) (s : DState) (fr : Frame) (rest : List Frame)
    (h : s.scopes = fr :: rest) (hn : (dFN ss).Nodup) : HoistSpec ss s fr rest :=
  hoist_spec_fuel (slen ss) ss s fr rest (le_refl _) h hn

/-! ### The uniqueness invariant of the Disambiguator

The invariant carried through the traversal: the used set only grows; the
only frame entries added in the current scope are for variable/label
declarations; the declared names of the output are pairwise distinct, all
recorded as used, and each is either freshly issued (not used before) or the
hoisted name of a directly defined function of the current scope. -/

/-- Hypotheses for processing one statement: well-scoped state, scope
well-formedness, and resolvability of the statement's function name (bound
by hoisting, `ρ` giving its assigned name, already recorded as used). -/
def SHyp (st : Stmt) (s : DState) (ρ : String → String) (fr : Frame)
    (rest : List Frame) : Prop :=
  s.scopes = fr :: rest ∧ okS st = true ∧
  (∀ f ∈ fN st, lookupFrames s.scopes f = Option.some (ρ f) ∧ ρ f ∈ s.used)

/-- Conclusions for processing one statement. -/
def SConcl (st : Stmt) (s : DState) (ρ : String → String) (fr : Frame)
    (rest : List Frame) : Prop :=
  UsedExt s (disambStmt s st).2 ∧
  (∃ entries : Frame, (disambStmt s st).2.scopes = (entries ++ fr) :: rest ∧
    ∀ kv ∈ entries, kv.1 ∈ dVNS st) ∧
  (declS (disambStmt s st).1).Nodup ∧
  (∀ n ∈ declS (disambStmt s st).1, n ∈ (disambStmt s st).2.used ∧
    (n ∉ s.used ∨ ∃ f ∈ fN st, n = ρ f))

/-- Hypotheses for processing the statements of one scope (after its
function names were hoisted). -/
def LHyp (ss : StmtList) (s : DState) (ρ : String → String) (fr : Frame)
    (rest : List Frame) : Prop :=
  s.scopes = fr :: rest ∧ okL ss = true ∧ (dVN ss ++ dFN ss).Nodup ∧
  (∀ f ∈ dFN ss, lookupFrames s.scopes f = Option.some (ρ f) ∧ ρ f ∈ s.used) ∧
  (∀ f g, f ∈ dFN ss → g ∈ dFN ss → ρ f = ρ g → f = g)

/-- Conclusions for processing the statements of one scope. -/
def LConcl (ss : StmtList) (s : DState) (ρ : String → String) (fr : Frame)
    (rest : List Frame) : Prop :=
  UsedExt s (disambStmts s ss).2 ∧
  (∃ entries : Frame, (disambStmts s ss).2.scopes = (entries ++ fr) :: rest ∧
    ∀ kv ∈ entries, kv.1 ∈ dVN ss) ∧
  (declL (disambStmts s ss).1).Nodup ∧
  (∀ n ∈ declL (disambStmts s ss).1, n ∈ (disambStmts s ss).2.used ∧
    (n ∉ s.used ∨ ∃ f ∈ dFN ss, n = ρ f))

/-- Conclusions for processing switch cases (each body its own scope; the
scope stack is restored). -/
def CConcl (cs : CaseList) (s : DState) : Prop :=
  UsedExt s (disambCases s cs).2 ∧
  (disambCases s cs).2.scopes = s.scopes ∧
  (declC (disambCases s cs).1).Nodup ∧
  (∀ n ∈ declC (disambCases s cs).1, n ∈ (disambCases s cs).2.used ∧ n ∉ s.used)

/-- Conclusions for processing the optional default block. -/
def OConcl (ob : OptBlock) (s : DState) : Prop :=
  UsedExt s (disambOpt s ob).2 ∧
  (disambOpt s ob).2.scopes = s.scopes ∧
  (declO (disambOpt s ob).1).Nodup ∧
  (∀ n ∈ declO (disambOpt s ob).1, n ∈ (disambOpt s ob).2.used ∧ n ∉ s.used)

/-- Running one scope (hoist its function names, then process its
statements): all declared output names are fresh relative to the incoming
used set, pairwise distinct, recorded as used, and the scope-stack shape is
preserved. -/
theorem hoistRun_spec (ss : StmtList) (s0 : DState) (fr0 : Frame) (rest0 : List Frame)
    (hsc : s0.scopes = fr0 :: rest0)
    (hok : okL ss = true) (hnd : (dVN ss ++ dFN ss).Nodup)
    (IHL : ∀ s' ρ' fr' rest', LHyp ss s' ρ' fr' rest' → LConcl ss s' ρ' fr' rest') :
    UsedExt s0 (disambStmts (hoistFuns s0 ss) ss).2 ∧
    (∃ fr1, (disambStmts (hoistFuns s0 ss) ss).2.scopes = fr1 :: rest0) ∧
    (declL (disambStmts (hoistFuns s0 ss) ss).1).Nodup ∧
    (∀ n ∈ declL (disambStmts (hoistFuns s0 ss) ss).1,
      n ∈ (disambStmts (hoistFuns s0 ss) ss).2.used ∧ n ∉ s0.used) := by
  have hdfn : (dFN ss).Nodup := hnd.of_append_right
  obtain ⟨entries, ρh, hsch, hkeys, hexth, hlook, hinj⟩ :=
    hoist_spec ss s0 fr0 rest0 hsc hdfn
  have hL := IHL (hoistFuns s0 ss) ρh (entries ++ fr0) rest0
    ⟨hsch, hok, hnd, fun f hf => ⟨(hlook f hf).1, (hlook f hf).2.1⟩, hinj⟩
  obtain ⟨hu, ⟨entries2, hsc2, _⟩, hnd2, hmem2⟩ := hL
  refine ⟨usedExt_trans hexth hu, ⟨entries2 ++ (entries ++ fr0), by rw [hsc2], ⟩, hnd2, ?_⟩
  intro n hn
  obtain ⟨hn1, hn2⟩ := hmem2 n hn
  refine ⟨hn1, ?_⟩
  rcases hn2 with hn2 | ⟨f, hf, rfl⟩
  · intro hmem
    exact hn2 (usedExt_subset hexth hmem)
  · exact (hlook f hf).2.2

end Solidity

namespace Solidity

theorem disamb_main : ∀ (N : Nat),
    (∀ st, szS st ≤ N → ∀ s ρ fr rest, SHyp st s ρ fr rest → SConcl st s ρ fr rest) ∧
    (∀ ss, szL ss ≤ N → ∀ s ρ fr rest, LHyp ss s ρ fr rest → LConcl ss s ρ fr rest) ∧
    (∀ cs, szC cs ≤ N → ∀ s fr rest, s.scopes = fr :: rest → okC cs = true → CConcl cs s) ∧
    (∀ ob, szO ob ≤ N → ∀ s fr rest, s.scopes = fr :: rest → okO ob = true → OConcl ob s) := by
  intro N
  induction N using Nat.strong_induction_on with
  | _ N IH =>
  have hIHS : ∀ st, szS st < N → ∀ s ρ fr rest, SHyp st s ρ fr rest → SConcl st s ρ fr rest :=
    fun st hm => (IH (szS st) hm).1 st (le_refl _)
  have hIHL : ∀ ss, szL ss < N → ∀ s ρ fr rest, LHyp ss s ρ fr rest → LConcl ss s ρ fr rest :=
    fun ss hm => (IH (szL ss) hm).2.1 ss (le_refl _)
  have hIHC : ∀ cs, szC cs < N → ∀ s fr rest, s.scopes = fr :: rest → okC cs = true → CConcl cs s :=
    fun cs hm => (IH (szC cs) hm).2.2.1 cs (le_refl _)
  have hIHO : ∀ ob, szO ob < N → ∀ s fr rest, s.scopes = fr :: rest → okO ob = true → OConcl ob s :=
    fun ob hm => (IH (szO ob) hm).2.2.2 ob (le_refl _)
  refine ⟨?_, ?_, ?_, ?_⟩
  · intro st hsz s ρ fr rest hhyp
    obtain ⟨hsc, hok, hlook⟩ := hhyp
    cases st with
    | block ss =>
      have hszl : szL ss < N := by
        have hx : szS (Stmt.block ss) = szL ss + 1 := rfl
        omega
      have hok' : (dVN ss ++ dFN ss).Nodup ∧ okL ss = true := by
        have hx : okS (Stmt.block ss) = (decide ((dVN ss ++ dFN ss).Nodup) && okL ss) := rfl
        rw [hx] at hok
        simpa [Bool.and_eq_true, decide_eq_true_eq] using hok
      have hps : (pushFrame s).scopes = [] :: fr :: rest := by simp [pushFrame, hsc]
      have hrun := hoistRun_spec ss (pushFrame s) [] (fr :: rest) hps hok'.2 hok'.1
        (fun s' ρ' fr' rest' hh => hIHL ss hszl s' ρ' fr' rest' hh)
      obtain ⟨hu, ⟨fr1, hsc1⟩, hnd1, hmem1⟩ := hrun
      unfold SConcl
      have heq : disambStmt s (.block ss) =
          (.block (disambStmts (hoistFuns (pushFrame s) ss) ss).1,
            ⟨(disambStmts (hoistFuns (pushFrame s) ss) ss).2.used, s.scopes⟩) := rfl
      rw [heq]
      dsimp only
      refine ⟨?_, ⟨[], by simp [hsc], by simp⟩, ?_, ?_⟩
      · obtain ⟨I, hI⟩ := hu
        exact ⟨I, hI⟩
      · exact hnd1
      · intro n hn
        obtain ⟨h1, h2⟩ := hmem1 n hn
        exact ⟨h1, Or.inl h2⟩
    | varDecl names val =>
      have hdt := declareTyped_spec names s fr rest hsc
      obtain ⟨hext, ⟨entries, hscopes, hkeys⟩, hnd1, hmem1⟩ := hdt
      unfold SConcl
      have heq : disambStmt s (.varDecl names val) =
          (.varDecl (declareTyped s names).1 (val.map (disambExpr s.scopes)),
            (declareTyped s names).2) := rfl
      rw [heq]
      dsimp only
      refine ⟨hext, ⟨entries, hscopes, ?_⟩, ?_, ?_⟩
      · intro kv hkv
        exact hkeys kv hkv
      · exact hnd1
      · intro n hn
        obtain ⟨h1, h2⟩ := hmem1 n hn
        exact ⟨h1, Or.inl h2⟩
    | assign targets val =>
      unfold SConcl
      have heq : disambStmt s (.assign targets val) =
          (.assign (targets.map (tr s.scopes)) (disambExpr s.scopes val), s) := rfl
      rw [heq]
      dsimp only
      exact ⟨usedExt_refl s, ⟨[], by simp [hsc], by simp⟩, by simp [declS],
        by intro n hn; simp [declS] at hn⟩
    | ifStmt c body =>
      have hszl : szL body < N := by
        have hx : szS (Stmt.ifStmt c body) = szL body + 1 := rfl
        omega
      have hok' : (dVN body ++ dFN body).Nodup ∧ okL body = true := by
        have hx : okS (Stmt.ifStmt c body) =
            (decide ((dVN body ++ dFN body).Nodup) && okL body) := rfl
        rw [hx] at hok
        simpa [Bool.and_eq_true, decide_eq_true_eq] using hok
      have hps : (pushFrame s).scopes = [] :: fr :: rest := by simp [pushFrame, hsc]
      have hrun := hoistRun_spec body (pushFrame s) [] (fr :: rest) hps hok'.2 hok'.1
        (fun s' ρ' fr' rest' hh => hIHL body hszl s' ρ' fr' rest' hh)
      obtain ⟨hu, ⟨fr1, hsc1⟩, hnd1, hmem1⟩ := hrun
      unfold SConcl
      have heq : disambStmt s (.ifStmt c body) =
          (.ifStmt (disambExpr s.scopes c) (disambStmts (hoistFuns (pushFrame s) body) body).1,
            ⟨(disambStmts (hoistFuns (pushFrame s) body) body).2.used, s.scopes⟩) := rfl
      rw [heq]
      dsimp only
      refine ⟨?_, ⟨[], by simp [hsc], by simp⟩, ?_, ?_⟩
      · obtain ⟨I, hI⟩ := hu
        exact ⟨I, hI⟩
      · exact hnd1
      · intro n hn
        obtain ⟨h1, h2⟩ := hmem1 n hn
        exact ⟨h1, Or.inl h2⟩
    | switch c cases dflt =>
      have hszc : szC cases < N := by
        have hx : szS (Stmt.switch c cases dflt) = szC cases + szO dflt + 1 := rfl
        omega
      have hszo : szO dflt < N := by
        have hx : szS (Stmt.switch c cases dflt) = szC cases + szO dflt + 1 := rfl
        omega
      have hok' : okC cases = true ∧ okO dflt = true := by
        have hx : okS (Stmt.switch c cases dflt) = (okC cases && okO dflt) := rfl
        rw [hx] at hok
        simpa [Bool.and_eq_true] using hok
      have hC := hIHC cases hszc s fr rest hsc hok'.1
      obtain ⟨huC, hscC, hndC, hmemC⟩ := hC
      have hscC' : (disambCases s cases).2.scopes = fr :: rest := by rw [hscC, hsc]
      have hO := hIHO dflt hszo (disambCases s cases).2 fr rest hscC' hok'.2
      obtain ⟨huO, hscO, hndO, hmemO⟩ := hO
      unfold SConcl
      have heq : disambStmt s (.switch c cases dflt) =
          (.switch (disambExpr s.scopes c) (disambCases s cases).1
            (disambOpt (disambCases s cases).2 dflt).1,
            (disambOpt (disambCases s cases).2 dflt).2) := rfl
      rw [heq]
      dsimp only
      refine ⟨usedExt_trans huC huO, ⟨[], by rw [hscO, hscC, hsc]; rfl, by simp⟩, ?_, ?_⟩
      · have hd : declS (.switch (disambExpr s.scopes c) (disambCases s cases).1
            (disambOpt (disambCases s cases).2 dflt).1) =
            declC (disambCases s cases).1 ++ declO (disambOpt (disambCases s cases).2 dflt).1 := rfl
        rw [hd, List.nodup_append]
        refine ⟨hndC, hndO, ?_⟩
        intro n hn1 hn2
        exact (hmemO n hn2).2 ((hmemC n hn1).1)
      · intro n hn
        have hd : declS (.switch (disambExpr s.scopes c) (disambCases s cases).1
            (disambOpt (disambCases s cases).2 dflt).1) =
            declC (disambCases s cases).1 ++ declO (disambOpt (disambCases s cases).2 dflt).1 := rfl
        rw [hd] at hn
        rcases List.mem_append.mp hn with hn | hn
        · exact ⟨usedExt_subset huO (hmemC n hn).1, Or.inl (hmemC n hn).2⟩
        · refine ⟨(hmemO n hn).1, Or.inl ?_⟩
          intro hmem
          exact (hmemO n hn).2 (usedExt_subset huC hmem)
    | forLoop ini c post body =>
      have hx : szS (Stmt.forLoop ini c post body) = szL ini + szL post + szL body + 1 := rfl
      have hszi : szL ini < N := by omega
      have hszp : szL post < N := by omega
      have hszb : szL body < N := by omega
      have hok' : ((dVN ini ++ dFN ini).Nodup ∧ (dVN post ++ dFN post).Nodup ∧
          (dVN body ++ dFN body).Nodup) ∧ okL ini = true ∧ okL post = true ∧ okL body = true := by
        have hy : okS (Stmt.forLoop ini c post body) =
            (decide ((dVN ini ++ dFN ini).Nodup) && decide ((dVN post ++ dFN post).Nodup) &&
              decide ((dVN body ++ dFN body).Nodup) && okL ini && okL post && okL body) := rfl
        rw [hy] at hok
        simp only [Bool.and_eq_true, decide_eq_true_eq] at hok
        tauto
      obtain ⟨⟨hA, hB, hCn⟩, hD, hE, hF⟩ := hok'
      have hps : (pushFrame s).scopes = [] :: fr :: rest := by simp [pushFrame, hsc]
      have r1 := hoistRun_spec ini (pushFrame s) [] (fr :: rest) hps hD hA
        (fun s' ρ' fr' rest' hh => hIHL ini hszi s' ρ' fr' rest' hh)
      obtain ⟨hu1, ⟨fr1, hsc1⟩, hnd1, hmem1⟩ := r1
      have r2 := hoistRun_spec post (disambStmts (hoistFuns (pushFrame s) ini) ini).2 fr1
        (fr :: rest) hsc1 hE hB
        (fun s' ρ' fr' rest' hh => hIHL post hszp s' ρ' fr' rest' hh)
      obtain ⟨hu2, ⟨fr2, hsc2⟩, hnd2, hmem2⟩ := r2
      have r3 := hoistRun_spec body
        (disambStmts (hoistFuns (disambStmts (hoistFuns (pushFrame s) ini) ini).2 post) post).2 fr2
        (fr :: rest) hsc2 hF hCn
        (fun s' ρ' fr' rest' hh => hIHL body hszb s' ρ' fr' rest' hh)
      obtain ⟨hu3, ⟨fr3, hsc3⟩, hnd3, hmem3⟩ := r3
      unfold SConcl
      have heq : disambStmt s (.forLoop ini c post body) =
          (.forLoop (disambStmts (hoistFuns (pushFrame s) ini) ini).1
            (disambExpr (disambStmts (hoistFuns (pushFrame s) ini) ini).2.scopes c)
            (disambStmts (hoistFuns (disambStmts (hoistFuns (pushFrame s) ini) ini).2 post) post).1
            (disambStmts (hoistFuns (disambStmts (hoistFuns (disambStmts (hoistFuns (pushFrame s) ini) ini).2 post) post).2 body) body).1,
            ⟨(disambStmts (hoistFuns (disambStmts (hoistFuns (disambStmts (hoistFuns (pushFrame s) ini) ini).2 post) post).2 body) body).2.used, s.scopes⟩) := rfl
      rw [heq]
      dsimp only
      have hsub12 : (disambStmts (hoistFuns (pushFrame s) ini) ini).2.used ⊆
          (disambStmts (hoistFuns (disambStmts (hoistFuns (pushFrame s) ini) ini).2 post) post).2.used :=
        usedExt_subset hu2
      have hsub23 : (disambStmts (hoistFuns (disambStmts (hoistFuns (pushFrame s) ini) ini).2 post) post).2.used ⊆
          (disambStmts (hoistFuns (disambStmts (hoistFuns (disambStmts (hoistFuns (pushFrame s) ini) ini).2 post) post).2 body) body).2.used :=
        usedExt_subset hu3
      refine ⟨usedExt_trans hu1 (usedExt_trans hu2 hu3), ⟨[], by simp [hsc], by simp⟩, ?_, ?_⟩
      · have hd : declS (.forLoop (disambStmts (hoistFuns (pushFrame s) ini) ini).1
            (disambExpr (disambStmts (hoistFuns (pushFrame s) ini) ini).2.scopes c)
            (disambStmts (hoistFuns (disambStmts (hoistFuns (pushFrame s) ini) ini).2 post) post).1
            (disambStmts (hoistFuns (disambStmts (hoistFuns (disambStmts (hoistFuns (pushFrame s) ini) ini).2 post) post).2 body) body).1) =
            declL (disambStmts (hoistFuns (pushFrame s) ini) ini).1 ++
              declL (disambStmts (hoistFuns (disambStmts (hoistFuns (pushFrame s) ini) ini).2 post) post).1 ++
              declL (disambStmts (hoistFuns (disambStmts (hoistFuns (disambStmts (hoistFuns (pushFrame s) ini) ini).2 post) post).2 body) body).1 := rfl
        rw [hd, List.nodup_append, List.nodup_append]
        refine ⟨⟨hnd1, hnd2, ?_⟩, hnd3, ?_⟩
        · intro n hn1 hn2
          exact (hmem2 n hn2).2 ((hmem1 n hn1).1)
        · intro n hn1 hn2
          rcases List.mem_append.mp hn1 with hn1 | hn1
          · exact (hmem3 n hn2).2 (hsub12 ((hmem1 n hn1).1))
          · exact (hmem3 n hn2).2 ((hmem2 n hn1).1)
      · intro n hn
        have hd : declS (.forLoop (disambStmts (hoistFuns (pushFrame s) ini) ini).1
            (disambExpr (disambStmts (hoistFuns (pushFrame s) ini) ini).2.scopes c)
            (disambStmts (hoistFuns (disambStmts (hoistFuns (pushFrame s) ini) ini).2 post) post).1
            (disambStmts (hoistFuns (disambStmts (hoistFuns (disambStmts (hoistFuns (pushFrame s) ini) ini).2 post) post).2 body) body).1) =
            declL (disambStmts (hoistFuns (pushFrame s) ini) ini).1 ++
              declL (disambStmts (hoistFuns (disambStmts (hoistFuns (pushFrame s) ini) ini).2 post) post).1 ++
              declL (disambStmts (hoistFuns (disambStmts (hoistFuns (disambStmts (hoistFuns (pushFrame s) ini) ini).2 post) post).2 body) body).1 := rfl
        rw [hd] at hn
        rcases List.mem_append.mp hn with hn | hn
        · rcases List.mem_append.mp hn with hn | hn
          · exact ⟨hsub23 (hsub12 (hmem1 n hn).1), Or.inl (hmem1 n hn).2⟩
          · refine ⟨hsub23 (hmem2 n hn).1, Or.inl ?_⟩
            intro hmem
            exact (hmem2 n hn).2 (usedExt_subset hu1 hmem)
        · refine ⟨(hmem3 n hn).1, Or.inl ?_⟩
          intro hmem
          exact (hmem3 n hn).2 (usedExt_subset hu2 (usedExt_subset hu1 hmem))
    | funDef f params rets body =>
      have hszb : szL body < N := by
        have hx : szS (Stmt.funDef f params rets body) = szL body + 1 := rfl
        omega
      have hok' : (dVN body ++ dFN body).Nodup ∧ okL body = true := by
        have hx : okS (Stmt.funDef f params rets body) =
            (decide ((dVN body ++ dFN body).Nodup) && okL body) := rfl
        rw [hx] at hok
        simpa [Bool.and_eq_true, decide_eq_true_eq] using hok
      have hlf := hlook f (by simp [fN])
      have hps : (pushFrame s).scopes = [] :: fr :: rest := by simp [pushFrame, hsc]
      have hP := declareTyped_spec params (pushFrame s) [] (fr :: rest) hps
      obtain ⟨hextP, ⟨eP, hscP, hkP⟩, hndP, hmemP⟩ := hP
      have hR := declareTyped_spec rets (declareTyped (pushFrame s) params).2 (eP ++ [])
        (fr :: rest) hscP
      obtain ⟨hextR, ⟨eR, hscR, hkR⟩, hndR, hmemR⟩ := hR
      have hpr : (pushFrame (declareTyped (declareTyped (pushFrame s) params).2 rets).2).scopes =
          [] :: (declareTyped (declareTyped (pushFrame s) params).2 rets).2.scopes := rfl
      have hrun := hoistRun_spec body
        (pushFrame (declareTyped (declareTyped (pushFrame s) params).2 rets).2) []
        ((declareTyped (declareTyped (pushFrame s) params).2 rets).2.scopes) hpr hok'.2 hok'.1
        (fun s' ρ' fr' rest' hh => hIHL body hszb s' ρ' fr' rest' hh)
      obtain ⟨huB, _, hndB, hmemB⟩ := hrun
      have hf' : tr s.scopes f = ρ f := by
        show (lookupFrames s.scopes f).getD f = ρ f
        rw [hlf.1]
        rfl
      have hsubP : s.used ⊆ (declareTyped (pushFrame s) params).2.used := usedExt_subset hextP
      have hsubR : (declareTyped (pushFrame s) params).2.used ⊆
          (declareTyped (declareTyped (pushFrame s) params).2 rets).2.used := usedExt_subset hextR
      have hsubB : (declareTyped (declareTyped (pushFrame s) params).2 rets).2.used ⊆
          (disambStmts (hoistFuns (pushFrame (declareTyped (declareTyped (pushFrame s) params).2 rets).2) body) body).2.used :=
        usedExt_subset huB
      unfold SConcl
      have heq : disambStmt s (.funDef f params rets body) =
          (.funDef (tr s.scopes f) (declareTyped (pushFrame s) params).1
            (declareTyped (declareTyped (pushFrame s) params).2 rets).1
            (disambStmts (hoistFuns (pushFrame (declareTyped (declareTyped (pushFrame s) params).2 rets).2) body) body).1,
            ⟨(disambStmts (hoistFuns (pushFrame (declareTyped (declareTyped (pushFrame s) params).2 rets).2) body) body).2.used,
              s.scopes⟩) := rfl
      rw [heq]
      dsimp only
      have hdS : declS (.funDef (tr s.scopes f) (declareTyped (pushFrame s) params).1
            (declareTyped (declareTyped (pushFrame s) params).2 rets).1
            (disambStmts (hoistFuns (pushFrame (declareTyped (declareTyped (pushFrame s) params).2 rets).2) body) body).1) =
          (tr s.scopes f) :: ((declareTyped (pushFrame s) params).1.map Prod.fst ++
            (declareTyped (declareTyped (pushFrame s) params).2 rets).1.map Prod.fst ++
            declL (disambStmts (hoistFuns (pushFrame (declareTyped (declareTyped (pushFrame s) params).2 rets).2) body) body).1) := rfl
      refine ⟨?_, ⟨[], by simp [hsc], by simp⟩, ?_, ?_⟩
      · refine usedExt_trans hextP (usedExt_trans hextR (usedExt_trans huB ?_))
        exact ⟨[], rfl⟩
      · rw [hdS, List.nodup_cons, List.nodup_append, List.nodup_append]
        refine ⟨?_, ⟨hndP, hndR, ?_⟩, hndB, ?_⟩
        · intro hmem
          rcases List.mem_append.mp hmem with hmem | hmem
          · rcases List.mem_append.mp hmem with hmem | hmem
            · exact (hmemP _ hmem).2 (hf' ▸ hlf.2)
            · exact (hmemR _ hmem).2 (hsubP (hf' ▸ hlf.2))

          · exact (hmemB _ hmem).2 (hsubR (hsubP (hf' ▸ hlf.2)))
        · intro n hn1 hn2
          exact (hmemR n hn2).2 ((hmemP n hn1).1)
        · intro n hn1 hn2
          rcases List.mem_append.mp hn1 with hn1 | hn1
          · exact (hmemB n hn2).2 (hsubR ((hmemP n hn1).1))
          · exact (hmemB n hn2).2 ((hmemR n hn1).1)
      · intro n hn
        rw [hdS] at hn
        rcases List.mem_cons.mp hn with hn | hn
        · subst hn
          refine ⟨hsubB (hsubR (hsubP (hf' ▸ hlf.2))), Or.inr ⟨f, by simp [fN], hf'⟩⟩
        rcases List.mem_append.mp hn with hn | hn
        · rcases List.mem_append.mp hn with hn | hn
          · exact ⟨hsubB (hsubR (hmemP n hn).1), Or.inl (hmemP n hn).2⟩
          · exact ⟨hsubB (hmemR n hn).1, Or.inl (fun hm => (hmemR n hn).2 (hsubP hm))⟩
        · exact ⟨(hmemB n hn).1, Or.inl (fun hm => (hmemB n hn).2 (hsubR (hsubP hm)))⟩
    | instr op =>
      unfold SConcl
      have heq : disambStmt s (.instr op) = (.instr op, s) := rfl
      rw [heq]
      dsimp only
      exact ⟨usedExt_refl s, ⟨[], by simp [hsc], by simp⟩, by simp [declS],
        by intro n hn; simp [declS] at hn⟩
    | label n =>
      unfold SConcl
      have heq : disambStmt s (.label n) = (.label (declareName s n).1, (declareName s n).2) := rfl
      rw [heq]
      dsimp only
      have hu := declareName_used s n
      have hf := declareName_fresh s n
      have hscp := declareName_scopes s n fr rest hsc
      refine ⟨declareName_usedExt s n, ⟨[(n, (declareName s n).1)], by rw [hscp]; rfl, by simp [dVNS]⟩, ?_, ?_⟩
      · simp [declS]
      · intro m hm
        have hd : declS (.label (declareName s n).1) = [(declareName s n).1] := rfl
        rw [hd] at hm
        simp only [List.mem_singleton] at hm
        subst hm
        refine ⟨?_, Or.inl hf⟩
        rw [hu]
        exact List.mem_cons_self _ _
    | stackAssign n =>
      unfold SConcl
      have heq : disambStmt s (.stackAssign n) = (.stackAssign (tr s.scopes n), s) := rfl
      rw [heq]
      dsimp only
      exact ⟨usedExt_refl s, ⟨[], by simp [hsc], by simp⟩, by simp [declS],
        by intro m hm; simp [declS] at hm⟩
  · intro ss hsz s ρ fr rest hhyp
    obtain ⟨hsc, hok, hnd, hlook, hinj⟩ := hhyp
    cases ss with
    | nil =>
      unfold LConcl
      have heq : disambStmts s .nil = (.nil, s) := rfl
      rw [heq]
      dsimp only
      exact ⟨usedExt_refl s, ⟨[], by simp [hsc], by simp⟩, by simp [declL],
        by intro n hn; simp [declL] at hn⟩
    | cons st ss =>
      have hx : szL (StmtList.cons st ss) = szS st + szL ss + 1 := rfl
      have hszst : szS st < N := by omega
      have hszss : szL ss < N := by omega
      have hok' : okS st = true ∧ okL ss = true := by
        have hy : okL (StmtList.cons st ss) = (okS st && okL ss) := rfl
        rw [hy] at hok
        simpa [Bool.and_eq_true] using hok
      have hdv : dVN (StmtList.cons st ss) = dVNS st ++ dVN ss := rfl
      have hdf : dFN (StmtList.cons st ss) = fN st ++ dFN ss := dFN_cons st ss
      rw [hdv, hdf] at hnd
      have hS := hIHS st hszst s ρ fr rest
        ⟨hsc, hok'.1, fun g hg => hlook g (by rw [hdf]; exact List.mem_append_left _ hg)⟩
      obtain ⟨huS, ⟨e1, hsc1, hk1⟩, hndS, hmemS⟩ := hS
      have hdisjVF : (dVNS st ++ dVN ss).Disjoint (fN st ++ dFN ss) :=
        List.disjoint_of_nodup_append hnd
      have hndTail : (dVN ss ++ dFN ss).Nodup := by
        refine hnd.sublist ?_
        exact List.Sublist.append (List.sublist_append_right _ _) (List.sublist_append_right _ _)
      have hlookTail : ∀ g ∈ dFN ss,
          lookupFrames (disambStmt s st).2.scopes g = Option.some (ρ g) ∧
            ρ g ∈ (disambStmt s st).2.used := by
        intro g hg
        have hgcons : g ∈ fN st ++ dFN ss := List.mem_append_right _ hg
        have hbase := hlook g (by rw [hdf]; exact hgcons)
        have hne : ∀ kv ∈ e1, kv.1 ≠ g := by
          intro kv hkv hkeq
          exact hdisjVF (List.mem_append_left _ (hkeq ▸ hk1 kv hkv)) hgcons
        refine ⟨?_, usedExt_subset huS hbase.2⟩
        rw [hsc1, lookupFrames_extend e1 fr rest g hne, ← hsc]
        exact hbase.1
      have hinjTail : ∀ a b, a ∈ dFN ss → b ∈ dFN ss → ρ a = ρ b → a = b := by
        intro a b ha hb
        exact hinj a b (by rw [hdf]; exact List.mem_append_right _ ha)
          (by rw [hdf]; exact List.mem_append_right _ hb)
      have hL := hIHL ss hszss (disambStmt s st).2 ρ (e1 ++ fr) rest
        ⟨hsc1, hok'.2, hndTail, hlookTail, hinjTail⟩
      obtain ⟨huL, ⟨e2, hsc2, hk2⟩, hndL, hmemL⟩ := hL
      unfold LConcl
      have heq : disambStmts s (.cons st ss) =
          (.cons (disambStmt s st).1 (disambStmts (disambStmt s st).2 ss).1,
            (disambStmts (disambStmt s st).2 ss).2) := rfl
      rw [heq]
      dsimp only
      have hdL : declL (StmtList.cons (disambStmt s st).1 (disambStmts (disambStmt s st).2 ss).1) =
          declS (disambStmt s st).1 ++ declL (disambStmts (disambStmt s st).2 ss).1 := rfl
      refine ⟨usedExt_trans huS huL, ⟨e2 ++ e1, ?_, ?_⟩, ?_, ?_⟩
      · rw [hsc2, List.append_assoc]
      · intro kv hkv
        rw [hdv]
        rcases List.mem_append.mp hkv with hkv | hkv
        · exact List.mem_append_right _ (hk2 kv hkv)
        · exact List.mem_append_left _ (hk1 kv hkv)
      · rw [hdL, List.nodup_append]
        refine ⟨hndS, hndL, ?_⟩
        intro n hn1 hn2
        obtain ⟨hu1', hd1⟩ := hmemS n hn1
        obtain ⟨hu2', hd2⟩ := hmemL n hn2
        rcases hd2 with hd2 | ⟨g, hg, rfl⟩
        · exact hd2 hu1'
        · have hρg : ρ g ∈ s.used :=
            (hlook g (by rw [hdf]; exact List.mem_append_right _ hg)).2
          rcases hd1 with hd1 | ⟨f0, hf0, he0⟩
          · exact hd1 hρg
          · have hfg : f0 = g := hinj f0 g (by rw [hdf]; exact List.mem_append_left _ hf0)
              (by rw [hdf]; exact List.mem_append_right _ hg) he0.symm
            have hndF : (fN st ++ dFN ss).Nodup := hnd.of_append_right
            exact (List.disjoint_of_nodup_append hndF) hf0 (hfg ▸ hg)
      · intro n hn
        rw [hdL] at hn
        rcases List.mem_append.mp hn with hn | hn
        · obtain ⟨h1, h2⟩ := hmemS n hn
          refine ⟨usedExt_subset huL h1, ?_⟩
          rcases h2 with h2 | ⟨f0, hf0, he0⟩
          · exact Or.inl h2
          · exact Or.inr ⟨f0, by rw [hdf]; exact List.mem_append_left _ hf0, he0⟩
        · obtain ⟨h1, h2⟩ := hmemL n hn
          refine ⟨h1, ?_⟩
          rcases h2 with h2 | ⟨g, hg, he⟩
          · exact Or.inl (fun hm => h2 (usedExt_subset huS hm))
          · exact Or.inr ⟨g, by rw [hdf]; exact List.mem_append_right _ hg, he⟩
  · intro cs hsz s fr rest hsc hok
    cases cs with
    | nil =>
      unfold CConcl
      have heq : disambCases s .nil = (.nil, s) := rfl
      rw [heq]
      dsimp only
      exact ⟨usedExt_refl s, rfl, by simp [declC], by intro n hn; simp [declC] at hn⟩
    | cons v ty body rest' =>
      have hx : szC (CaseList.cons v ty body rest') = szL body + szC rest' + 1 := rfl
      have hszb : szL body < N := by omega
      have hszr : szC rest' < N := by omega
      have hok' : (dVN body ++ dFN body).Nodup ∧ okL body = true ∧ okC rest' = true := by
        have hy : okC (CaseList.cons v ty body rest') =
            (decide ((dVN body ++ dFN body).Nodup) && okL body && okC rest') := rfl
        rw [hy] at hok
        simp only [Bool.and_eq_true, decide_eq_true_eq] at hok
        tauto
      have hps : (pushFrame s).scopes = [] :: fr :: rest := by simp [pushFrame, hsc]
      have hrun := hoistRun_spec body (pushFrame s) [] (fr :: rest) hps hok'.2.1 hok'.1
        (fun s' ρ' fr' rest' hh => hIHL body hszb s' ρ' fr' rest' hh)
      obtain ⟨hu1, _, hnd1, hmem1⟩ := hrun
      have hR := hIHC rest' hszr
        ⟨(disambStmts (hoistFuns (pushFrame s) body) body).2.used, s.scopes⟩ fr rest
        (by simpa using hsc) hok'.2.2
      obtain ⟨hu2, hsc2, hnd2, hmem2⟩ := hR
      unfold CConcl
      have heq : disambCases s (.cons v ty body rest') =
          (.cons v ty (disambStmts (hoistFuns (pushFrame s) body) body).1
            (disambCases ⟨(disambStmts (hoistFuns (pushFrame s) body) body).2.used, s.scopes⟩ rest').1,
            (disambCases ⟨(disambStmts (hoistFuns (pushFrame s) body) body).2.used, s.scopes⟩ rest').2) := rfl
      rw [heq]
      dsimp only
      have hdC : declC (CaseList.cons v ty (disambStmts (hoistFuns (pushFrame s) body) body).1
            (disambCases ⟨(disambStmts (hoistFuns (pushFrame s) body) body).2.used, s.scopes⟩ rest').1) =
          declL (disambStmts (hoistFuns (pushFrame s) body) body).1 ++
            declC (disambCases ⟨(disambStmts (hoistFuns (pushFrame s) body) body).2.used, s.scopes⟩ rest').1 := rfl
      refine ⟨?_, ?_, ?_, ?_⟩
      · refine usedExt_trans ?_ hu2
        obtain ⟨I, hI⟩ := hu1
        exact ⟨I, hI⟩
      · rw [hsc2]
      · rw [hdC, List.nodup_append]
        refine ⟨hnd1, hnd2, ?_⟩
        intro n hn1 hn2
        exact (hmem2 n hn2).2 ((hmem1 n hn1).1)
      · intro n hn
        rw [hdC] at hn
        rcases List.mem_append.mp hn with hn | hn
        · exact ⟨usedExt_subset hu2 (hmem1 n hn).1, (hmem1 n hn).2⟩
        · exact ⟨(hmem2 n hn).1, fun hm => (hmem2 n hn).2 (usedExt_subset hu1 hm)⟩
  · intro ob hsz s fr rest hsc hok
    cases ob with
    | none =>
      unfold OConcl
      have heq : disambOpt s .none = (.none, s) := rfl
      rw [heq]
      dsimp only
      exact ⟨usedExt_refl s, rfl, by simp [declO], by intro n hn; simp [declO] at hn⟩
    | some ss =>
      have hx : szO (OptBlock.some ss) = szL ss + 1 := rfl
      have hszb : szL ss < N := by omega
      have hok' : (dVN ss ++ dFN ss).Nodup ∧ okL ss = true := by
        have hy : okO (OptBlock.some ss) = (decide ((dVN ss ++ dFN ss).Nodup) && okL ss) := rfl
        rw [hy] at hok
        simpa [Bool.and_eq_true, decide_eq_true_eq] using hok
      have hps : (pushFrame s).scopes = [] :: fr :: rest := by simp [pushFrame, hsc]
      have hrun := hoistRun_spec ss (pushFrame s) [] (fr :: rest) hps hok'.2 hok'.1
        (fun s' ρ' fr' rest' hh => hIHL ss hszb s' ρ' fr' rest' hh)
      obtain ⟨hu1, _, hnd1, hmem1⟩ := hrun
      unfold OConcl
      have heq : disambOpt s (.some ss) =
          (.some (disambStmts (hoistFuns (pushFrame s) ss) ss).1,
            ⟨(disambStmts (hoistFuns (pushFrame s) ss) ss).2.used, s.scopes⟩) := rfl
      rw [heq]
      dsimp only
      refine ⟨?_, rfl, hnd1, ?_⟩
      · obtain ⟨I, hI⟩ := hu1
        exact ⟨I, hI⟩
      · intro n hn
        exact ⟨(hmem1 n hn).1, (hmem1 n hn).2⟩

end Solidity

namespace Solidity

/-- The Disambiguator's output has pairwise-distinct declared names for
every well-formed program. -/
theorem disamb_nodup (prog : StmtList) (hok : okProg prog = true) :
    (declL (disambiguate prog)).Nodup := by
  have h1 : (dVN prog ++ dFN prog).Nodup ∧ okL prog = true := by
    simpa [okProg, Bool.and_eq_true, decide_eq_true_eq] using hok
  have hrun := hoistRun_spec prog (pushFrame ⟨[], []⟩) [] [] rfl h1.2 h1.1
    (fun s' ρ' fr' rest' hh =>
      (disamb_main (szL prog)).2.1 prog (le_refl _) s' ρ' fr' rest' hh)
  exact hrun.2.2.1

/-! ### Idempotence: a second pass over uniquely-named output is the
identity.  All scope frames built during such a pass bind names to
themselves. -/

/-- Every binding in every frame is an identity binding. -/
def IdFrames (sc : List Frame) : Prop := ∀ fr ∈ sc, ∀ kv ∈ fr, kv.2 = kv.1

theorem assocFind_id (fr : Frame) (n v : String) (hfr : ∀ kv ∈ fr, kv.2 = kv.1) :
    assocFind fr n = Option.some v → v = n := by
  induction fr with
  | nil => intro h; simp [assocFind] at h
  | cons kv rest ih =>
    obtain ⟨k, w⟩ := kv
    intro h
    simp only [assocFind] at h
    by_cases hk : k = n
    · rw [if_pos hk] at h
      have hw : w = k := hfr (k, w) (List.mem_cons_self _ _)
      have hv : v = w := by
        injection h with h'
        exact h'.symm
      rw [hv, hw, hk]
    · rw [if_neg hk] at h
      exact ih (fun kv hkv => hfr kv (List.mem_cons_of_mem _ hkv)) h

theorem tr_id (sc : List Frame) (h : IdFrames sc) (n : String) : tr sc n = n := by
  unfold tr
  cases hl : lookupFrames sc n with
  | none => rfl
  | some v =>
    have hv : v = n := by
      induction sc with
      | nil => simp [lookupFrames] at hl
      | cons fr rest ih =>
        simp only [lookupFrames] at hl
        cases ha : assocFind fr n with
        | some w =>
          rw [ha] at hl
          have hw := assocFind_id fr n w (h fr (List.mem_cons_self _ _)) ha
          simp only [Option.some.injEq] at hl
          rw [← hl, hw]
        | none =>
          rw [ha] at hl
          exact ih (fun fr' hfr' => h fr' (List.mem_cons_of_mem _ hfr')) hl
    rw [hv]
    rfl

end Solidity

namespace Solidity

mutual

/-- Size of an expression. -/
def szE : Expr → Nat
  | .lit _ _ => 1
  | .ident _ => 1
  | .funCall _ args => szEL args + 1
  | .funInstr _ args => szEL args + 1

/-- Size of an expression list. -/
def szEL : ExprList → Nat
  | .nil => 0
  | .cons e es => szE e + szEL es + 1

end

theorem disambExpr_id_fuel : ∀ (N : Nat),
    (∀ e, szE e ≤ N → ∀ sc, IdFrames sc → disambExpr sc e = e) ∧
    (∀ es, szEL es ≤ N → ∀ sc, IdFrames sc → disambExprList sc es = es) := by
  intro N
  induction N using Nat.strong_induction_on with
  | _ N IH =>
  constructor
  · intro e hsz sc hid
    cases e with
    | lit v ty => rfl
    | ident n =>
      show Expr.ident (tr sc n) = Expr.ident n
      rw [tr_id sc hid n]
    | funCall f args =>
      have hszl : szEL args < N := by
        have hx : szE (Expr.funCall f args) = szEL args + 1 := rfl
        omega
      show Expr.funCall (tr sc f) (disambExprList sc args) = Expr.funCall f args
      rw [tr_id sc hid f, (IH (szEL args) hszl).2 args (le_refl _) sc hid]
    | funInstr op args =>
      have hszl : szEL args < N := by
        have hx : szE (Expr.funInstr op args) = szEL args + 1 := rfl
        omega
      show Expr.funInstr op (disambExprList sc args) = Expr.funInstr op args
      rw [(IH (szEL args) hszl).2 args (le_refl _) sc hid]
  · intro es hsz sc hid
    cases es with
    | nil => rfl
    | cons e es' =>
      have hx : szEL (ExprList.cons e es') = szE e + szEL es' + 1 := rfl
      have h1 : szE e < N := by omega
      have h2 : szEL es' < N := by omega
      show ExprList.cons (disambExpr sc e) (disambExprList sc es') = ExprList.cons e es'
      rw [(IH (szE e) h1).1 e (le_refl _) sc hid, (IH (szEL es') h2).2 es' (le_refl _) sc hid]

theorem disambExpr_id (sc : List Frame) (hid : IdFrames sc) (e : Expr) :
    disambExpr sc e = e :=
  (disambExpr_id_fuel (szE e)).1 e (le_refl _) sc hid

theorem idFrames_bind (s : DState) (n m : String) (h : IdFrames s.scopes) (hnm : m = n) :
    IdFrames (bindName s n m).scopes := by
  unfold bindName
  cases hsc : s.scopes with
  | nil => simpa [hsc] using h
  | cons fr rest =>
    intro fr' hfr' kv hkv
    simp only at hfr'
    rcases List.mem_cons.mp hfr' with rfl | hfr'
    · rcases List.mem_cons.mp hkv with rfl | hkv
      · exact hnm
      · exact h fr (by rw [hsc]; exact List.mem_cons_self _ _) kv hkv
    · exact h fr' (by rw [hsc]; exact List.mem_cons_of_mem _ hfr') kv hkv

theorem declareName_id (s : DState) (n : String) (hn : n ∉ s.used) :
    (declareName s n).1 = n ∧ (declareName s n).2.used = n :: s.used := by
  have h1 : (declareName s n).1 = n := newName_of_not_mem s.used n hn
  refine ⟨h1, ?_⟩
  rw [declareName_used s n, h1]

theorem declareName_id_frames (s : DState) (n : String) (hn : n ∉ s.used)
    (hid : IdFrames s.scopes) : IdFrames (declareName s n).2.scopes := by
  have h1 : (newName s.used n).1 = n := newName_of_not_mem s.used n hn
  show IdFrames (bindName ⟨(newName s.used n).2, s.scopes⟩ n (newName s.used n).1).scopes
  rw [h1]
  exact idFrames_bind ⟨(newName s.used n).2, s.scopes⟩ n n hid rfl

end Solidity

namespace Solidity

theorem idFrames_push (s : DState) (h : IdFrames s.scopes) :
    IdFrames (pushFrame s).scopes := by
  intro fr hfr kv hkv
  rcases List.mem_cons.mp hfr with rfl | hfr
  · simp at hkv
  · exact h fr hfr kv hkv

theorem declareTyped_id : ∀ (lst : List TypedName) (s : DState),
    (lst.map Prod.fst).Nodup → (∀ n ∈ lst.map Prod.fst, n ∉ s.used) →
    IdFrames s.scopes →
    (declareTyped s lst).1 = lst ∧ IdFrames (declareTyped s lst).2.scopes ∧
    (∀ n ∈ (declareTyped s lst).2.used, n ∈ s.used ∨ n ∈ lst.map Prod.fst) := by
  intro lst
  induction lst with
  | nil =>
    intro s _ _ hid
    exact ⟨rfl, hid, fun n hn => Or.inl hn⟩
  | cons nt rest ih =>
    intro s hnd hfresh hid
    obtain ⟨n, ty⟩ := nt
    have hn : n ∉ s.used := hfresh n (by simp)
    have hd := declareName_id s n hn
    have hidf := declareName_id_frames s n hn hid
    have hih := ih (declareName s n).2 (by simpa using hnd.of_cons)
      (by
        intro m hm
        rw [hd.2]
        intro hmem
        rcases List.mem_cons.mp hmem with rfl | hmem
        · have : m ∉ (List.map Prod.fst rest) := by
            simp only [List.map_cons, List.nodup_cons] at hnd
            exact hnd.1
          exact this hm
        · exact hfresh m (by simp [hm]) hmem)
      hidf
    have hstep : declareTyped s ((n, ty) :: rest) =
        (((declareName s n).1, ty) :: (declareTyped (declareName s n).2 rest).1,
          (declareTyped (declareName s n).2 rest).2) := by
      simp [declareTyped]
    rw [hstep]
    refine ⟨?_, hih.2.1, ?_⟩
    · simp only [List.cons.injEq]
      exact ⟨by rw [hd.1], hih.1⟩
    · intro m hm
      rcases hih.2.2 m hm with hmem | hmem
      · rw [hd.2] at hmem
        rcases List.mem_cons.mp hmem with rfl | hmem
        · exact Or.inr (by simp)
        · exact Or.inl hmem
      · exact Or.inr (by simp [hmem])

theorem fN_sublist_declS (st : Stmt) : (fN st).Sublist (declS st) := by
  cases st with
  | funDef f params rets body =>
    exact (List.nil_sublist _).cons₂ f
  | block ss => exact List.nil_sublist _
  | varDecl a b => exact List.nil_sublist _
  | assign a b => exact List.nil_sublist _
  | ifStmt a b => exact List.nil_sublist _
  | switch a b c => exact List.nil_sublist _
  | forLoop a b c d => exact List.nil_sublist _
  | instr a => exact List.nil_sublist _
  | label a => exact List.nil_sublist _
  | stackAssign a => exact List.nil_sublist _

theorem dFN_sublist_declL : ∀ (N : Nat) (ss : StmtList), slen ss ≤ N →
    (dFN ss).Sublist (declL ss) := by
  intro N
  induction N with
  | zero =>
    intro ss hsz
    cases ss with
    | nil => exact List.nil_sublist _
    | cons st ss => simp [slen] at hsz
  | succ N ih =>
    intro ss hsz
    cases ss with
    | nil => exact List.nil_sublist _
    | cons st ss =>
      have h1 : (dFN (StmtList.cons st ss)) = fN st ++ dFN ss := dFN_cons st ss
      have h2 : (declL (StmtList.cons st ss)) = declS st ++ declL ss := rfl
      rw [h1, h2]
      exact List.Sublist.append (fN_sublist_declS st)
        (ih ss (by simp [slen] at hsz; omega))

theorem dFN_subset_declL (ss : StmtList) : ∀ f ∈ dFN ss, f ∈ declL ss :=
  fun f hf => (dFN_sublist_declL (slen ss) ss (le_refl _)).subset hf

/-- Hoisting over uniquely-named input: every function keeps its name and is
bound to itself; the used set grows by exactly those names. -/
theorem hoistId_spec : ∀ (N : Nat) (ss : StmtList) (s : DState), slen ss ≤ N →
    IdFrames s.scopes → (dFN ss).Nodup → (∀ f ∈ dFN ss, f ∉ s.used) →
    IdFrames (hoistFuns s ss).scopes ∧
    (∀ n ∈ (hoistFuns s ss).used, n ∈ s.used ∨ n ∈ dFN ss) := by
  intro N
  induction N with
  | zero =>
    intro ss s hsz hid _ _
    cases ss with
    | nil => exact ⟨hid, fun n hn => Or.inl hn⟩
    | cons st ss => simp [slen] at hsz
  | succ N ih =>
    intro ss s hsz hid hnd hfresh
    cases ss with
    | nil => exact ⟨hid, fun n hn => Or.inl hn⟩
    | cons st ss =>
      have hsz' : slen ss ≤ N := by simp [slen] at hsz; omega
      cases st with
      | funDef f params rets body =>
        have hdf : dFN (StmtList.cons (Stmt.funDef f params rets body) ss) = f :: dFN ss := rfl
        rw [hdf] at hnd hfresh
        have hf : f ∉ s.used := hfresh f (List.mem_cons_self _ _)
        have hd := declareName_id s f hf
        have hidf := declareName_id_frames s f hf hid
        have hstep : hoistFuns s (StmtList.cons (Stmt.funDef f params rets body) ss) =
            hoistFuns (declareName s f).2 ss := rfl
        rw [hstep, hdf]
        have hih := ih ss (declareName s f).2 hsz' hidf (List.nodup_cons.mp hnd).2
          (by
            intro g hg
            rw [hd.2]
            intro hmem
            rcases List.mem_cons.mp hmem with rfl | hmem
            · exact (List.nodup_cons.mp hnd).1 hg
            · exact hfresh g (List.mem_cons_of_mem _ hg) hmem)
        refine ⟨hih.1, ?_⟩
        intro n hn
        rcases hih.2 n hn with hmem | hmem
        · rw [hd.2] at hmem
          rcases List.mem_cons.mp hmem with rfl | hmem
          · exact Or.inr (List.mem_cons_self _ _)
          · exact Or.inl hmem
        · exact Or.inr (List.mem_cons_of_mem _ hmem)
      | block a => exact ih ss s hsz' hid hnd hfresh
      | varDecl a b => exact ih ss s hsz' hid hnd hfresh
      | assign a b => exact ih ss s hsz' hid hnd hfresh
      | ifStmt a b => exact ih ss s hsz' hid hnd hfresh
      | switch a b c => exact ih ss s hsz' hid hnd hfresh
      | forLoop a b c d => exact ih ss s hsz' hid hnd hfresh
      | instr a => exact ih ss s hsz' hid hnd hfresh
      | label a => exact ih ss s hsz' hid hnd hfresh
      | stackAssign a => exact ih ss s hsz' hid hnd hfresh

end Solidity

namespace Solidity

/-- Second-pass conclusion for a statement: the output is unchanged, frames
stay identity bindings, and the used set grows only by declared names. -/
def IdS (st : Stmt) (s : DState) : Prop :=
  (disambStmt s st).1 = st ∧ IdFrames (disambStmt s st).2.scopes ∧
  ∀ n ∈ (disambStmt s st).2.used, n ∈ s.used ∨ n ∈ declS st

/-- Second-pass conclusion for a statement list. -/
def IdL (ss : StmtList) (s : DState) : Prop :=
  (disambStmts s ss).1 = ss ∧ IdFrames (disambStmts s ss).2.scopes ∧
  ∀ n ∈ (disambStmts s ss).2.used, n ∈ s.used ∨ n ∈ declL ss

/-- Second-pass conclusion for switch cases. -/
def IdC (cs : CaseList) (s : DState) : Prop :=
  (disambCases s cs).1 = cs ∧ (disambCases s cs).2.scopes = s.scopes ∧
  ∀ n ∈ (disambCases s cs).2.used, n ∈ s.used ∨ n ∈ declC cs

/-- Second-pass conclusion for the optional default block. -/
def IdO (ob : OptBlock) (s : DState) : Prop :=
  (disambOpt s ob).1 = ob ∧ (disambOpt s ob).2.scopes = s.scopes ∧
  ∀ n ∈ (disambOpt s ob).2.used, n ∈ s.used ∨ n ∈ declO ob

theorem disamb_id_main : ∀ (N : Nat),
    (∀ st, szS st ≤ N → ∀ s, IdFrames s.scopes → (declS st).Nodup →
      (∀ n ∈ declS st, n ∈ s.used → n ∈ fN st) → IdS st s) ∧
    (∀ ss, szL ss ≤ N → ∀ s, IdFrames s.scopes → (declL ss).Nodup →
      (∀ n ∈ declL ss, n ∈ s.used → n ∈ dFN ss) → IdL ss s) ∧
    (∀ cs, szC cs ≤ N → ∀ s, IdFrames s.scopes → (declC cs).Nodup →
      (∀ n ∈ declC cs, n ∉ s.used) → IdC cs s) ∧
    (∀ ob, szO ob ≤ N → ∀ s, IdFrames s.scopes → (declO ob).Nodup →
      (∀ n ∈ declO ob, n ∉ s.used) → IdO ob s) := by
  intro N
  induction N using Nat.strong_induction_on with
  | _ N IH =>
  have hIHS : ∀ st, szS st < N → ∀ s, IdFrames s.scopes → (declS st).Nodup →
      (∀ n ∈ declS st, n ∈ s.used → n ∈ fN st) → IdS st s :=
    fun st hm => (IH (szS st) hm).1 st (le_refl _)
  have hIHL : ∀ ss, szL ss < N → ∀ s, IdFrames s.scopes → (declL ss).Nodup →
      (∀ n ∈ declL ss, n ∈ s.used → n ∈ dFN ss) → IdL ss s :=
    fun ss hm => (IH (szL ss) hm).2.1 ss (le_refl _)
  have hIHC : ∀ cs, szC cs < N → ∀ s, IdFrames s.scopes → (declC cs).Nodup →
      (∀ n ∈ declC cs, n ∉ s.used) → IdC cs s :=
    fun cs hm => (IH (szC cs) hm).2.2.1 cs (le_refl _)
  have hIHO : ∀ ob, szO ob < N → ∀ s, IdFrames s.scopes → (declO ob).Nodup →
      (∀ n ∈ declO ob, n ∉ s.used) → IdO ob s :=
    fun ob hm => (IH (szO ob) hm).2.2.2 ob (le_refl _)
  have hScopedRun : ∀ ss s, szL ss < N → IdFrames s.scopes → (declL ss).Nodup →
      (∀ n ∈ declL ss, n ∉ s.used) →
      (disambStmts (hoistFuns (pushFrame s) ss) ss).1 = ss ∧
      IdFrames (disambStmts (hoistFuns (pushFrame s) ss) ss).2.scopes ∧
      (∀ n ∈ (disambStmts (hoistFuns (pushFrame s) ss) ss).2.used,
        n ∈ s.used ∨ n ∈ declL ss) := by
    intro ss s hsz hid hnd hfresh
    have hndF : (dFN ss).Nodup := hnd.sublist (dFN_sublist_declL (slen ss) ss (le_refl _))
    have hH := hoistId_spec (slen ss) ss (pushFrame s) (le_refl _) (idFrames_push s hid)
      hndF (fun f hf => hfresh f (dFN_subset_declL ss f hf))
    have hL := hIHL ss hsz (hoistFuns (pushFrame s) ss) hH.1 hnd
      (by
        intro n hn hmem
        rcases hH.2 n hmem with hmem | hmem
        · exact absurd hmem (hfresh n hn)
        · exact hmem)
    refine ⟨hL.1, hL.2.1, ?_⟩
    intro n hn
    rcases hL.2.2 n hn with hmem | hmem
    · rcases hH.2 n hmem with hmem | hmem
      · exact Or.inl hmem
      · exact Or.inr (dFN_subset_declL ss n hmem)
    · exact Or.inr hmem
  refine ⟨?_, ?_, ?_, ?_⟩
  · intro st hsz s hid hnd hdisj
    cases st with
    | block ss =>
      have hszl : szL ss < N := by
        have hx : szS (Stmt.block ss) = szL ss + 1 := rfl
        omega
      have hrun := hScopedRun ss s hszl hid hnd
        (fun n hn hm => by simpa [fN] using hdisj n hn hm)
      unfold IdS
      have heq : disambStmt s (.block ss) =
          (.block (disambStmts (hoistFuns (pushFrame s) ss) ss).1,
            ⟨(disambStmts (hoistFuns (pushFrame s) ss) ss).2.used, s.scopes⟩) := rfl
      rw [heq]
      dsimp only
      exact ⟨by rw [hrun.1], hid, hrun.2.2⟩
    | varDecl names val =>
      have hval : val.map (disambExpr s.scopes) = val := by
        cases val with
        | none => rfl
        | some e => simp [disambExpr_id s.scopes hid e]
      have hdt := declareTyped_id names s hnd
        (fun n hn hm => by simpa [fN] using hdisj n hn hm) hid
      unfold IdS
      have heq : disambStmt s (.varDecl names val) =
          (.varDecl (declareTyped s names).1 (val.map (disambExpr s.scopes)),
            (declareTyped s names).2) := rfl
      rw [heq]
      dsimp only
      refine ⟨by rw [hdt.1, hval], hdt.2.1, hdt.2.2⟩
    | assign targets val =>
      have htr : targets.map (tr s.scopes) = targets := by
        have h1 : ∀ x ∈ targets, tr s.scopes x = x := fun x _ => tr_id s.scopes hid x
        calc targets.map (tr s.scopes) = targets.map id := List.map_congr_left h1
        _ = targets := List.map_id _
      unfold IdS
      have heq : disambStmt s (.assign targets val) =
          (.assign (targets.map (tr s.scopes)) (disambExpr s.scopes val), s) := rfl
      rw [heq]
      dsimp only
      exact ⟨by rw [htr, disambExpr_id s.scopes hid val], hid, fun n hn => Or.inl hn⟩
    | ifStmt c body =>
      have hszl : szL body < N := by
        have hx : szS (Stmt.ifStmt c body) = szL body + 1 := rfl
        omega
      have hrun := hScopedRun body s hszl hid hnd
        (fun n hn hm => by simpa [fN] using hdisj n hn hm)
      unfold IdS
      have heq : disambStmt s (.ifStmt c body) =
          (.ifStmt (disambExpr s.scopes c) (disambStmts (hoistFuns (pushFrame s) body) body).1,
            ⟨(disambStmts (hoistFuns (pushFrame s) body) body).2.used, s.scopes⟩) := rfl
      rw [heq]
      dsimp only
      exact ⟨by rw [hrun.1, disambExpr_id s.scopes hid c], hid, hrun.2.2⟩
    | switch c cases dflt =>
      have hx : szS (Stmt.switch c cases dflt) = szC cases + szO dflt + 1 := rfl
      have hszc : szC cases < N := by omega
      have hszo : szO dflt < N := by omega
      have hdecl : declS (Stmt.switch c cases dflt) = declC cases ++ declO dflt := rfl
      rw [hdecl] at hnd hdisj
      have hC := hIHC cases hszc s hid hnd.of_append_left
        (fun n hn hm => by
          have := hdisj n (List.mem_append_left _ hn) hm
          simp [fN] at this)
      have hdisjCO : (declC cases).Disjoint (declO dflt) := List.disjoint_of_nodup_append hnd
      have hidO : IdFrames (disambCases s cases).2.scopes := by
        rw [hC.2.1]
        exact hid
      have hO := hIHO dflt hszo (disambCases s cases).2 hidO hnd.of_append_right
        (by
          intro n hn hmem
          rcases hC.2.2 n hmem with hmem | hmem
          · have := hdisj n (List.mem_append_right _ hn) hmem
            simp [fN] at this
          · exact hdisjCO hmem hn)
      unfold IdS
      have heq : disambStmt s (.switch c cases dflt) =
          (.switch (disambExpr s.scopes c) (disambCases s cases).1
            (disambOpt (disambCases s cases).2 dflt).1,
            (disambOpt (disambCases s cases).2 dflt).2) := rfl
      rw [heq]
      dsimp only
      refine ⟨by rw [hC.1, hO.1, disambExpr_id s.scopes hid c], ?_, ?_⟩
      · rw [hO.2.1, hC.2.1]
        exact hid
      · intro n hn
        rcases hO.2.2 n hn with hmem | hmem
        · rcases hC.2.2 n hmem with hmem | hmem
          · exact Or.inl hmem
          · exact Or.inr (by rw [hdecl]; exact List.mem_append_left _ hmem)
        · exact Or.inr (by rw [hdecl]; exact List.mem_append_right _ hmem)
    | forLoop ini c post body =>
      have hx : szS (Stmt.forLoop ini c post body) = szL ini + szL post + szL body + 1 := rfl
      have hszi : szL ini < N := by omega
      have hszp : szL post < N := by omega
      have hszb : szL body < N := by omega
      have hdecl : declS (Stmt.forLoop ini c post body) =
          (declL ini ++ declL post) ++ declL body := rfl
      rw [hdecl] at hnd hdisj
      have hfrAll : ∀ n ∈ (declL ini ++ declL post) ++ declL body, n ∉ s.used := by
        intro n hn hm
        have := hdisj n hn hm
        simp [fN] at this
      have hndI : (declL ini).Nodup := hnd.of_append_left.of_append_left
      have hndP : (declL post).Nodup := hnd.of_append_left.of_append_right
      have hndB : (declL body).Nodup := hnd.of_append_right
      have hdisjIP : (declL ini).Disjoint (declL post) :=
        List.disjoint_of_nodup_append hnd.of_append_left
      have hdisjIPB : ((declL ini) ++ (declL post)).Disjoint (declL body) :=
        List.disjoint_of_nodup_append hnd
      have hrunI := hScopedRun ini s hszi hid hndI
        (fun n hn => hfrAll n (List.mem_append_left _ (List.mem_append_left _ hn)))
      have hndFP : (dFN post).Nodup :=
        hndP.sublist (dFN_sublist_declL (slen post) post (le_refl _))
      have hfreshP : ∀ f ∈ dFN post,
          f ∉ (disambStmts (hoistFuns (pushFrame s) ini) ini).2.used := by
        intro f hf hm
        have hfP : f ∈ declL post := dFN_subset_declL post f hf
        rcases hrunI.2.2 f hm with hm | hm
        · exact hfrAll f (List.mem_append_left _ (List.mem_append_right _ hfP)) hm
        · exact hdisjIP hm hfP
      have hHP := hoistId_spec (slen post) post
        (disambStmts (hoistFuns (pushFrame s) ini) ini).2 (le_refl _) hrunI.2.1 hndFP hfreshP
      have hLP := hIHL post hszp
        (hoistFuns (disambStmts (hoistFuns (pushFrame s) ini) ini).2 post) hHP.1 hndP
        (by
          intro n hn hmem
          rcases hHP.2 n hmem with hmem | hmem
          · rcases hrunI.2.2 n hmem with hmem | hmem
            · exact absurd hmem
                (hfrAll n (List.mem_append_left _ (List.mem_append_right _ hn)))
            · exact absurd hn (hdisjIP hmem)
          · exact hmem)
      have hndFB : (dFN body).Nodup :=
        hndB.sublist (dFN_sublist_declL (slen body) body (le_refl _))
      have husedP : ∀ n ∈ (disambStmts (hoistFuns (disambStmts (hoistFuns (pushFrame s) ini) ini).2 post) post).2.used,
          n ∈ s.used ∨ n ∈ declL ini ∨ n ∈ declL post := by
        intro n hn
        rcases hLP.2.2 n hn with hm | hm
        · rcases hHP.2 n hm with hm | hm
          · rcases hrunI.2.2 n hm with hm | hm
            · exact Or.inl hm
            · exact Or.inr (Or.inl hm)
          · exact Or.inr (Or.inr (dFN_subset_declL post n hm))
        · exact Or.inr (Or.inr hm)
      have hfreshB : ∀ f ∈ dFN body,
          f ∉ (disambStmts (hoistFuns (disambStmts (hoistFuns (pushFrame s) ini) ini).2 post) post).2.used := by
        intro f hf hm
        have hfB : f ∈ declL body := dFN_subset_declL body f hf
        rcases husedP f hm with hm | hm | hm
        · exact hfrAll f (List.mem_append_right _ hfB) hm
        · exact hdisjIPB (List.mem_append_left _ hm) hfB
        · exact hdisjIPB (List.mem_append_right _ hm) hfB
      have hHB := hoistId_spec (slen body) body
        (disambStmts (hoistFuns (disambStmts (hoistFuns (pushFrame s) ini) ini).2 post) post).2
        (le_refl _) hLP.2.1 hndFB hfreshB
      have hLB := hIHL body hszb
        (hoistFuns (disambStmts (hoistFuns (disambStmts (hoistFuns (pushFrame s) ini) ini).2 post) post).2 body)
        hHB.1 hndB
        (by
          intro n hn hmem
          rcases hHB.2 n hmem with hmem | hmem
          · rcases husedP n hmem with hm | hm | hm
            · exact absurd hm (hfrAll n (List.mem_append_right _ hn))
            · exact absurd hn (hdisjIPB (List.mem_append_left _ hm))
            · exact absurd hn (hdisjIPB (List.mem_append_right _ hm))
          · exact hmem)
      unfold IdS
      have heq : disambStmt s (.forLoop ini c post body) =
          (.forLoop (disambStmts (hoistFuns (pushFrame s) ini) ini).1
            (disambExpr (disambStmts (hoistFuns (pushFrame s) ini) ini).2.scopes c)
            (disambStmts (hoistFuns (disambStmts (hoistFuns (pushFrame s) ini) ini).2 post) post).1
            (disambStmts (hoistFuns (disambStmts (hoistFuns (disambStmts (hoistFuns (pushFrame s) ini) ini).2 post) post).2 body) body).1,
            ⟨(disambStmts (hoistFuns (disambStmts (hoistFuns (disambStmts (hoistFuns (pushFrame s) ini) ini).2 post) post).2 body) body).2.used, s.scopes⟩) := rfl
      rw [heq]
      dsimp only
      refine ⟨?_, hid, ?_⟩
      · rw [hrunI.1, hLP.1, hLB.1, disambExpr_id _ hrunI.2.1 c]
      · intro n hn
        rw [hdecl]
        rcases hLB.2.2 n hn with hm | hm
        · rcases hHB.2 n hm with hm | hm
          · rcases husedP n hm with hm | hm | hm
            · exact Or.inl hm
            · exact Or.inr (List.mem_append_left _ (List.mem_append_left _ hm))
            · exact Or.inr (List.mem_append_left _ (List.mem_append_right _ hm))
          · exact Or.inr (List.mem_append_right _ (dFN_subset_declL body n hm))
        · exact Or.inr (List.mem_append_right _ hm)
    | funDef f params rets body =>
      have hszb : szL body < N := by
        have hx : szS (Stmt.funDef f params rets body) = szL body + 1 := rfl
        omega
      have hdecl : declS (Stmt.funDef f params rets body) =
          f :: ((params.map Prod.fst ++ rets.map Prod.fst) ++ declL body) := rfl
      rw [hdecl] at hnd hdisj
      have hf_notin : f ∉ (params.map Prod.fst ++ rets.map Prod.fst) ++ declL body :=
        (List.nodup_cons.mp hnd).1
      have hnd' : ((params.map Prod.fst ++ rets.map Prod.fst) ++ declL body).Nodup :=
        (List.nodup_cons.mp hnd).2
      have honlyf : ∀ n ∈ (params.map Prod.fst ++ rets.map Prod.fst) ++ declL body,
          n ∉ s.used := by
        intro n hn hm
        have hx := hdisj n (List.mem_cons_of_mem _ hn) hm
        have hnf : n = f := by simpa [fN] using hx
        exact hf_notin (hnf ▸ hn)
      have hndPp : (params.map Prod.fst).Nodup := hnd'.of_append_left.of_append_left
      have hndRr : (rets.map Prod.fst).Nodup := hnd'.of_append_left.of_append_right
      have hndD : (declL body).Nodup := hnd'.of_append_right
      have hdisjPR : (params.map Prod.fst).Disjoint (rets.map Prod.fst) :=
        List.disjoint_of_nodup_append hnd'.of_append_left
      have hdisjPRD : ((params.map Prod.fst) ++ (rets.map Prod.fst)).Disjoint (declL body) :=
        List.disjoint_of_nodup_append hnd'
      have hP := declareTyped_id params (pushFrame s) hndPp
        (fun n hn => honlyf n (List.mem_append_left _ (List.mem_append_left _ hn)))
        (idFrames_push s hid)
      have hR := declareTyped_id rets (declareTyped (pushFrame s) params).2 hndRr
        (by
          intro n hn hmem
          rcases hP.2.2 n hmem with hm | hm
          · exact honlyf n (List.mem_append_left _ (List.mem_append_right _ hn)) hm
          · exact hdisjPR hm hn)
        hP.2.1
      have hB := hScopedRun body (declareTyped (declareTyped (pushFrame s) params).2 rets).2
        hszb hR.2.1 hndD
        (by
          intro n hn hmem
          rcases hR.2.2 n hmem with hm | hm
          · rcases hP.2.2 n hm with hm | hm
            · exact honlyf n (List.mem_append_right _ hn) hm
            · exact hdisjPRD (List.mem_append_left _ hm) hn
          · exact hdisjPRD (List.mem_append_right _ hm) hn)
      unfold IdS
      have heq : disambStmt s (.funDef f params rets body) =
          (.funDef (tr s.scopes f) (declareTyped (pushFrame s) params).1
            (declareTyped (declareTyped (pushFrame s) params).2 rets).1
            (disambStmts (hoistFuns (pushFrame (declareTyped (declareTyped (pushFrame s) params).2 rets).2) body) body).1,
            ⟨(disambStmts (hoistFuns (pushFrame (declareTyped (declareTyped (pushFrame s) params).2 rets).2) body) body).2.used,
              s.scopes⟩) := rfl
      rw [heq]
      dsimp only
      refine ⟨?_, hid, ?_⟩
      · rw [hP.1, hR.1, hB.1, tr_id s.scopes hid f]
      · intro n hn
        rw [hdecl]
        rcases hB.2.2 n hn with hm | hm
        · rcases hR.2.2 n hm with hm | hm
          · rcases hP.2.2 n hm with hm | hm
            · exact Or.inl hm
            · exact Or.inr (List.mem_cons_of_mem _
                (List.mem_append_left _ (List.mem_append_left _ hm)))
          · exact Or.inr (List.mem_cons_of_mem _
              (List.mem_append_left _ (List.mem_append_right _ hm)))
        · exact Or.inr (List.mem_cons_of_mem _ (List.mem_append_right _ hm))
    | instr op =>
      unfold IdS
      exact ⟨rfl, hid, fun n hn => Or.inl hn⟩
    | label n =>
      have hn : n ∉ s.used := by
        intro hmem
        have := hdisj n (by simp [declS]) hmem
        simp [fN] at this
      have hd := declareName_id s n hn
      have hidf := declareName_id_frames s n hn hid
      unfold IdS
      have heq : disambStmt s (.label n) =
          (.label (declareName s n).1, (declareName s n).2) := rfl
      rw [heq]
      dsimp only
      refine ⟨by rw [hd.1], hidf, ?_⟩
      intro m hm
      rw [hd.2] at hm
      rcases List.mem_cons.mp hm with rfl | hm
      · exact Or.inr (by simp [declS])
      · exact Or.inl hm
    | stackAssign n =>
      unfold IdS
      have heq : disambStmt s (.stackAssign n) = (.stackAssign (tr s.scopes n), s) := rfl
      rw [heq]
      dsimp only
      exact ⟨by rw [tr_id s.scopes hid n], hid, fun m hm => Or.inl hm⟩
  · intro ss hsz s hid hnd hdisj
    cases ss with
    | nil =>
      unfold IdL
      exact ⟨rfl, hid, fun n hn => Or.inl hn⟩
    | cons st ss =>
      have hx : szL (StmtList.cons st ss) = szS st + szL ss + 1 := rfl
      have hszst : szS st < N := by omega
      have hszss : szL ss < N := by omega
      have hdecl : declL (StmtList.cons st ss) = declS st ++ declL ss := rfl
      have hdf : dFN (StmtList.cons st ss) = fN st ++ dFN ss := dFN_cons st ss
      rw [hdecl] at hnd hdisj
      rw [hdf] at hdisj
      have hdisjSS : (declS st).Disjoint (declL ss) := List.disjoint_of_nodup_append hnd
      have hS := hIHS st hszst s hid hnd.of_append_left
        (by
          intro n hn hm
          rcases List.mem_append.mp (hdisj n (List.mem_append_left _ hn) hm) with hx' | hx'
          · exact hx'
          · exact absurd (dFN_subset_declL ss n hx') (fun hc => hdisjSS hn hc))
      have hL := hIHL ss hszss (disambStmt s st).2 hS.2.1 hnd.of_append_right
        (by
          intro n hn hmem
          rcases hS.2.2 n hmem with hm | hm
          · rcases List.mem_append.mp (hdisj n (List.mem_append_right _ hn) hm) with hx' | hx'
            · exact absurd hn
                (fun hc => hdisjSS ((fN_sublist_declS st).subset hx') hc)
            · exact hx'
          · exact absurd hn (fun hc => hdisjSS hm hc))
      unfold IdL
      have heq : disambStmts s (.cons st ss) =
          (.cons (disambStmt s st).1 (disambStmts (disambStmt s st).2 ss).1,
            (disambStmts (disambStmt s st).2 ss).2) := rfl
      rw [heq]
      dsimp only
      refine ⟨by rw [hS.1, hL.1], hL.2.1, ?_⟩
      intro n hn
      rw [hdecl]
      rcases hL.2.2 n hn with hm | hm
      · rcases hS.2.2 n hm with hm | hm
        · exact Or.inl hm
        · exact Or.inr (List.mem_append_left _ hm)
      · exact Or.inr (List.mem_append_right _ hm)
  · intro cs hsz s hid hnd hdisj
    cases cs with
    | nil =>
      unfold IdC
      exact ⟨rfl, rfl, fun n hn => Or.inl hn⟩
    | cons v ty body rest' =>
      have hx : szC (CaseList.cons v ty body rest') = szL body + szC rest' + 1 := rfl
      have hszb : szL body < N := by omega
      have hszr : szC rest' < N := by omega
      have hdecl : declC (CaseList.cons v ty body rest') = declL body ++ declC rest' := rfl
      rw [hdecl] at hnd hdisj
      have hdisjBR : (declL body).Disjoint (declC rest') := List.disjoint_of_nodup_append hnd
      have hB := hScopedRun body s hszb hid hnd.of_append_left
        (fun n hn => hdisj n (List.mem_append_left _ hn))
      have hR := hIHC rest' hszr
        ⟨(disambStmts (hoistFuns (pushFrame s) body) body).2.used, s.scopes⟩ hid
        hnd.of_append_right
        (by
          intro n hn hmem
          rcases hB.2.2 n hmem with hm | hm
          · exact hdisj n (List.mem_append_right _ hn) hm
          · exact hdisjBR hm hn)
      unfold IdC
      have heq : disambCases s (.cons v ty body rest') =
          (.cons v ty (disambStmts (hoistFuns (pushFrame s) body) body).1
            (disambCases ⟨(disambStmts (hoistFuns (pushFrame s) body) body).2.used, s.scopes⟩ rest').1,
            (disambCases ⟨(disambStmts (hoistFuns (pushFrame s) body) body).2.used, s.scopes⟩ rest').2) := rfl
      rw [heq]
      dsimp only
      refine ⟨by rw [hB.1, hR.1], by rw [hR.2.1], ?_⟩
      intro n hn
      rw [hdecl]
      rcases hR.2.2 n hn with hm | hm
      · rcases hB.2.2 n hm with hm | hm
        · exact Or.inl hm
        · exact Or.inr (List.mem_append_left _ hm)
      · exact Or.inr (List.mem_append_right _ hm)
  · intro ob hsz s hid hnd hdisj
    cases ob with
    | none =>
      unfold IdO
      exact ⟨rfl, rfl, fun n hn => Or.inl hn⟩
    | some ss =>
      have hszl : szL ss < N := by
        have hx : szO (OptBlock.some ss) = szL ss + 1 := rfl
        omega
      have hrun := hScopedRun ss s hszl hid hnd hdisj
      unfold IdO
      have heq : disambOpt s (.some ss) =
          (.some (disambStmts (hoistFuns (pushFrame s) ss) ss).1,
            ⟨(disambStmts (hoistFuns (pushFrame s) ss) ss).2.used, s.scopes⟩) := rfl
      rw [heq]
      dsimp only
      exact ⟨by rw [hrun.1], rfl, hrun.2.2⟩

end Solidity

namespace Solidity

/-- A second Disambiguator pass over any tree with globally unique declared
names is the identity. -/
theorem disamb_identity (out : StmtList) (hnd : (declL out).Nodup) :
    disambiguate out = out := by
  have hid0 : IdFrames (pushFrame (⟨[], []⟩ : DState)).scopes := by
    intro fr hfr kv hkv
    rcases List.mem_cons.mp hfr with rfl | hfr
    · simp at hkv
    · simp at hfr
  have hndF : (dFN out).Nodup := hnd.sublist (dFN_sublist_declL (slen out) out (le_refl _))
  have hH := hoistId_spec (slen out) out (pushFrame ⟨[], []⟩) (le_refl _) hid0 hndF
    (fun f _ => List.not_mem_nil f)
  have hL := (disamb_id_main (szL out)).2.1 out (le_refl _)
    (hoistFuns (pushFrame ⟨[], []⟩) out) hH.1 hnd
    (fun n _ hmem => by
      rcases hH.2 n hmem with hm | hm
      · exact absurd hm (List.not_mem_nil n)
      · exact hm)
  exact hL.1

/-- The Disambiguator is idempotent on well-formed programs. -/
theorem disamb_idem (prog : StmtList) (hok : okProg prog = true) :
    disambiguate (disambiguate prog) = disambiguate prog :=
  disamb_identity (disambiguate prog) (disamb_nodup prog hok)

end Solidity

namespace Solidity

/-! ### Concrete programs from the Disambiguator unit tests -/

/-- A one-statement list. -/
def sl1 (a : Stmt) : StmtList := .cons a .nil

/-- A two-statement list. -/
def sl2 (a b : Stmt) : StmtList := .cons a (.cons b .nil)

/-- `let n:u256` -/
def letv (n : String) : Stmt := .varDecl [(n, "u256")] Option.none

/-- Test `variables`: `{ { let a } { let a } }`. -/
def progA : StmtList := sl2 (.block (sl1 (letv "a"))) (.block (sl1 (letv "a")))

/-- Expected output of `variables`: `{ { let a } { let a_1 } }`. -/
def progA' : StmtList := sl2 (.block (sl1 (letv "a"))) (.block (sl1 (letv "a_1")))

/-- Test `variables_clash`: `{ { let a let a_1 } { let a } }`. -/
def progB : StmtList :=
  sl2 (.block (sl2 (letv "a") (letv "a_1"))) (.block (sl1 (letv "a")))

/-- Expected output of `variables_clash`: `{ { let a let a_1 } { let a_2 } }`. -/
def progB' : StmtList :=
  sl2 (.block (sl2 (letv "a") (letv "a_1"))) (.block (sl1 (letv "a_2")))

/-- Test `for_statement`:
`{ { let a, b } { for { let a } a { a := a } { let b := a } } }`. -/
def progFor : StmtList :=
  sl2 (.block (sl1 (.varDecl [("a", "u256"), ("b", "u256")] Option.none)))
    (.block (sl1 (.forLoop (sl1 (letv "a")) (.ident "a")
      (sl1 (.assign ["a"] (.ident "a")))
      (sl1 (.varDecl [("b", "u256")] (Option.some (.ident "a")))))))

/-- Expected output of `for_statement`: the loop's `a` and all its uses in
condition, post and body become one fresh name `a_1`. -/
def progFor' : StmtList :=
  sl2 (.block (sl1 (.varDecl [("a", "u256"), ("b", "u256")] Option.none)))
    (.block (sl1 (.forLoop (sl1 (letv "a_1")) (.ident "a_1")
      (sl1 (.assign ["a_1"] (.ident "a_1")))
      (sl1 (.varDecl [("b_1", "u256")] (Option.some (.ident "a_1")))))))

/-- Test `variables_inside_functions`:
`{ { let c let b } function f(a, c) -> b { let x } { let a let x } }`. -/
def progFuns : StmtList :=
  .cons (.block (sl2 (letv "c") (letv "b")))
    (.cons (.funDef "f" [("a", "u256"), ("c", "u256")] [("b", "u256")] (sl1 (letv "x")))
      (.cons (.block (sl2 (letv "a") (letv "x"))) .nil))

/-! ### Claim theorems for the Disambiguator -/

/-- C1: for every well-formed input tree (consistent binding information,
modelled as: no scope declares the same name twice), the tree returned by
the Disambiguator contains no two declarations (variables, functions,
parameters, return names, labels) that share a name: `declL` collects every
declared name of the output and is duplicate-free. -/
theorem disambiguator_global_uniqueness (prog : StmtList) (hok : okProg prog = true) :
    (declL (disambiguate prog)).Nodup :=
  disamb_nodup prog hok

/-- Witness for C1 at the `variables_inside_functions` test program. -/
theorem disambiguator_global_uniqueness_witness :
    okProg progFuns = true ∧ (declL (disambiguate progFuns)).Nodup :=
  ⟨by decide, disambiguator_global_uniqueness progFuns (by decide)⟩

/-- C2: the Disambiguator is idempotent — applying it to its own output is
a no-op — for every well-formed input. -/
theorem disambiguator_idempotent (prog : StmtList) (hok : okProg prog = true) :
    disambiguate (disambiguate prog) = disambiguate prog :=
  disamb_idem prog hok

/-- Witness for C2 at the `variables_clash` test program. -/
theorem disambiguator_idempotent_witness :
    okProg progB = true ∧ disambiguate (disambiguate progB) = disambiguate progB :=
  ⟨by decide, disambiguator_idempotent progB (by decide)⟩

/-- C3: `NameDispenser::newName` returns the prefix itself when unused,
else the candidate `prefix + "_" + k` with the smallest positive `k` whose
candidate is unused; the returned name is recorded as used before the call
returns, and is itself fresh, so a later call on the same dispenser never
returns the same name again. -/
theorem nameDispenser_newName_spec (d : NameDispenser) (pfx : String) :
    (pfx ∉ d.m_usedNames → (d.newName pfx).1 = pfx) ∧
    (pfx ∈ d.m_usedNames → ∃ k, 1 ≤ k ∧ (d.newName pfx).1 = candidate pfx k ∧
      candidate pfx k ∉ d.m_usedNames ∧
      ∀ j, 1 ≤ j → j < k → candidate pfx j ∈ d.m_usedNames) ∧
    (d.newName pfx).1 ∈ ((d.newName pfx).2).m_usedNames ∧
    (d.newName pfx).1 ∉ d.m_usedNames ∧
    (∀ q, (((d.newName pfx).2).newName q).1 ≠ (d.newName pfx).1) := by
  refine ⟨?_, ?_, ?_, ?_, ?_⟩
  · intro h
    exact newName_of_not_mem d.m_usedNames pfx h
  · intro h
    exact newName_of_mem d.m_usedNames pfx h
  · show (newName d.m_usedNames pfx).1 ∈ (newName d.m_usedNames pfx).2
    rw [newName_snd]
    exact List.mem_cons_self _ _
  · exact newName_fst_not_mem d.m_usedNames pfx
  · intro q hq
    have hq' : (newName (newName d.m_usedNames pfx).2 q).1 = (newName d.m_usedNames pfx).1 := hq
    have h1 : (newName (newName d.m_usedNames pfx).2 q).1 ∉ (newName d.m_usedNames pfx).2 :=
      newName_fst_not_mem _ _
    rw [hq'] at h1
    apply h1
    rw [newName_snd]
    exact List.mem_cons_self _ _

/-- Witness for C3 on the dispenser whose used set is `{a, a_1}`. -/
theorem nameDispenser_newName_spec_witness :
    (NameDispenser.newName ⟨["a", "a_1"]⟩ "a").1 = "a_2" ∧
    "a_2" ∈ ((NameDispenser.newName ⟨["a", "a_1"]⟩ "a").2).m_usedNames ∧
    (((NameDispenser.newName ⟨["a", "a_1"]⟩ "a").2).newName "a").1 ≠
      (NameDispenser.newName ⟨["a", "a_1"]⟩ "a").1 := by
  have h := nameDispenser_newName_spec ⟨["a", "a_1"]⟩ "a"
  exact ⟨by decide, by decide, h.2.2.2.2 "a"⟩

/-- C4: colliding declarations get the smallest positive suffix making the
name unused; concretely `{ { let a } { let a } }` rewrites to
`{ { let a } { let a_1 } }` and `{ { let a let a_1 } { let a } }` rewrites
to `{ { let a let a_1 } { let a_2 } }` because `a_1` is already used. -/
theorem disambiguator_minimal_suffix :
    (∀ (used : List String) (pfx : String), pfx ∈ used →
      ∃ k, 1 ≤ k ∧ (newName used pfx).1 = candidate pfx k ∧
        candidate pfx k ∉ used ∧ ∀ j, 1 ≤ j → j < k → candidate pfx j ∈ used) ∧
    disambiguate progA = progA' ∧ disambiguate progB = progB' :=
  ⟨fun used pfx h => newName_of_mem used pfx h, rfl, rfl⟩

/-- Witness for C4's minimality component at `used = {a}`, `prefix = a`. -/
theorem disambiguator_minimal_suffix_witness :
    "a" ∈ ["a"] ∧ ∃ k, 1 ≤ k ∧ (newName ["a"] "a").1 = candidate "a" k ∧
      candidate "a" k ∉ ["a"] ∧ ∀ j, 1 ≤ j → j < k → candidate "a" j ∈ ["a"] :=
  ⟨by decide, disambiguator_minimal_suffix.1 ["a"] "a" (by decide)⟩

/-- C5: a ForLoop's init, condition, post and body form one lexical scope:
in the `for_statement` test, the init-declared `a` (shadowing the outer
`a`) and every reference to it in the condition, post and body are renamed
consistently to the single fresh name `a_1`. -/
theorem disambiguator_forloop_shared_scope : disambiguate progFor = progFor' := rfl

end Solidity

namespace Solidity

/-! ### BodyCopier

From `libjulia/optimiser/FullInliner.h`: `BodyCopier` is constructed with a
`NameDispenser&`, a name prefix (`std::string const& m_varNamePrefix`) and a
variable-replacement map taken by const reference but stored as a by-value
member (`std::map<std::string, std::string> m_variableReplacements`).  Its
`operator()` overloads for `VariableDeclaration` and `FunctionDefinition`
and `translateIdentifier` are outside the excerpt.  `Modelled from the
spec:` (section 4.4) every variable declaration encountered during the copy
gets a freshly dispensed name and the map is extended; every nested
function definition is likewise renamed; every identifier reference is
translated through the map if present, else left unchanged. -/

/-- `BodyCopier::translateIdentifier`: translate through the replacement
map if present, else leave unchanged. -/
def lookupRepl (m : List (String × String)) (n : String) : String :=
  (assocFind m n).getD n

mutual

/-- Copy an expression, translating every identifier occurrence. -/
def copyExpr (m : List (String × String)) : Expr → Expr
  | .lit v ty => .lit v ty
  | .ident n => .ident (lookupRepl m n)
  | .funCall f args => .funCall (lookupRepl m f) (copyExprs m args)
  | .funInstr op args => .funInstr op (copyExprs m args)

/-- Copy an expression list. -/
def copyExprs (m : List (String × String)) : ExprList → ExprList
  | .nil => .nil
  | .cons e es => .cons (copyExpr m e) (copyExprs m es)

end

/-- Dispense fresh (prefixed) names for a list of declared names, extending
the replacement map. -/
def bcNames (used : List String) (pfx : String) (m : List (String × String)) :
    List TypedName → List TypedName × List String × List (String × String)
  | [] => ([], used, m)
  | (n, ty) :: rest =>
    let nn := newName used (pfx ++ "_" ++ n)
    let r := bcNames nn.2 pfx ((n, nn.1) :: m) rest
    ((nn.1, ty) :: r.1, r.2)

mutual

/-- `Modelled from the spec:` the body of `BodyCopier` (outside the
excerpt): deep copy with on-the-fly renaming.  The replacement map is
threaded as mutable member state (extensions persist for later statements
of the same copy, matching the in-place member mutation). -/
def bodyCopyStmt (used : List String) (pfx : String) (m : List (String × String)) :
    Stmt → Stmt × List String × List (String × String)
  | .varDecl names val =>
    let val' := val.map (copyExpr m)
    let r := bcNames used pfx m names
    (.varDecl r.1 val', r.2)
  | .assign ts val => (.assign (ts.map (lookupRepl m)) (copyExpr m val), used, m)
  | .block ss =>
    let r := bodyCopyStmts used pfx m ss
    (.block r.1, r.2)
  | .ifStmt c body =>
    let r := bodyCopyStmts used pfx m body
    (.ifStmt (copyExpr m c) r.1, r.2)
  | .switch c cs d =>
    let rc := bodyCopyCases used pfx m cs
    let rd := bodyCopyOpt rc.2.1 pfx rc.2.2 d
    (.switch (copyExpr m c) rc.1 rd.1, rd.2)
  | .forLoop i c p b =>
    let ri := bodyCopyStmts used pfx m i
    let rp := bodyCopyStmts ri.2.1 pfx ri.2.2 p
    let rb := bodyCopyStmts rp.2.1 pfx rp.2.2 b
    (.forLoop ri.1 (copyExpr ri.2.2 c) rp.1 rb.1, rb.2)
  | .funDef g params rets body =>
    let gg := newName used (pfx ++ "_" ++ g)
    let rp := bcNames gg.2 pfx ((g, gg.1) :: m) params
    let rr := bcNames rp.2.1 pfx rp.2.2 rets
    let rb := bodyCopyStmts rr.2.1 pfx rr.2.2 body
    (.funDef gg.1 rp.1 rr.1 rb.1, rb.2)
  | .instr op => (.instr op, used, m)
  | .label n => (.label n, used, m)
  | .stackAssign n => (.stackAssign (lookupRepl m n), used, m)

/-- Copy the statements of a body, threading dispenser and map. -/
def bodyCopyStmts (used : List String) (pfx : String) (m : List (String × String)) :
    StmtList → StmtList × List String × List (String × String)
  | .nil => (.nil, used, m)
  | .cons st ss =>
    let r1 := bodyCopyStmt used pfx m st
    let r2 := bodyCopyStmts r1.2.1 pfx r1.2.2 ss
    (.cons r1.1 r2.1, r2.2)

/-- Copy switch cases. -/
def bodyCopyCases (used : List String) (pfx : String) (m : List (String × String)) :
    CaseList → CaseList × List String × List (String × String)
  | .nil => (.nil, used, m)
  | .cons v ty body rest =>
    let rb := bodyCopyStmts used pfx m body
    let rr := bodyCopyCases rb.2.1 pfx rb.2.2 rest
    (.cons v ty rb.1 rr.1, rr.2)

/-- Copy an optional default block. -/
def bodyCopyOpt (used : List String) (pfx : String) (m : List (String × String)) :
    OptBlock → OptBlock × List String × List (String × String)
  | .none => (.none, used, m)
  | .some ss =>
    let r := bodyCopyStmts used pfx m ss
    (.some r.1, r.2)

end

/-- The `BodyCopier` of `FullInliner.h`: a dispenser reference, the
variable-name prefix, and a by-value copy of the replacement map. -/
structure BodyCopier where
  m_nameDispenser : NameDispenser
  m_varNamePrefix : String
  m_variableReplacements : List (String × String)

/-- The constructor `BodyCopier::BodyCopier`: the caller's map is passed by
const reference and stored into the by-value member (a copy). -/
def BodyCopier.make (disp : NameDispenser) (pfx : String)
    (variableReplacements : List (String × String)) : BodyCopier :=
  ⟨disp, pfx, variableReplacements⟩

/-- Run the copier on a function body, producing the copied body and the
copier's final state (its member map may have been extended). -/
def BodyCopier.run (bc : BodyCopier) (b : StmtList) : StmtList × BodyCopier :=
  let r := bodyCopyStmts bc.m_nameDispenser.m_usedNames bc.m_varNamePrefix
    bc.m_variableReplacements b
  (r.1, ⟨⟨r.2.1⟩, bc.m_varNamePrefix, r.2.2⟩)

/-- A call site copying a callee body: the caller constructs a `BodyCopier`
from its own replacement map, runs it, and keeps its own map.  Returns the
copied body, the copier's final state, and the caller's map as seen after
the call. -/
def callerCopyBody (callerMap : List (String × String)) (disp : NameDispenser)
    (pfx : String) (b : StmtList) : StmtList × BodyCopier × List (String × String) :=
  let bc := BodyCopier.make disp pfx callerMap
  let r := bc.run b
  (r.1, r.2, callerMap)

end Solidity

namespace Solidity

/-! ### FullInliner

From `libjulia/optimiser/FullInliner.h`: the expression visitor returns, for
each node, the list of statements to be prefixed at the enclosing block
layer; `Literal` and `Identifier` return the empty list; `Instruction`,
`Label` and `StackAssignment` hit `solAssert(false, "")` (a fatal
internal-invariant failure, modelled as `Except.error`).  The pass keeps a
frozen snapshot of the tree as its function-lookup source
(`m_astCopy`), the set of functions it is inside of (`m_functionScopes`,
the recursion guard) and a `NameDispenser` seeded with every name already
present.  `Modelled from the spec:` the bodies (`FullInliner.cpp`) are
outside the excerpt; inlining follows spec section 4.5: a call is expanded
only if the callee exists in the snapshot, the arity matches (one return
value in expression position), and the callee is not in the guard;
otherwise the call is left structurally unchanged with only its arguments
processed.  Movable arguments (identifiers) are substituted directly;
other arguments get one fresh temporary each, declared in evaluation
order.  Spliced statements are not re-expanded within the same pass.  The
loop condition of a for statement is left unexpanded (it is re-evaluated
every iteration, so its calls cannot be hoisted above the loop). -/

/-- Signature and body of a function in the snapshot. -/
structure FunInfo where
  params : List TypedName
  rets : List TypedName
  body : StmtList

/-- The fatal internal-invariant failure of `solAssert(false, "")`. -/
inductive InlineError where
  | invariantViolation

/-- Function lookup in the snapshot. -/
def lookupFun : List (String × FunInfo) → String → Option FunInfo
  | [], _ => Option.none
  | (g, fi) :: rest, f => if g = f then Option.some fi else lookupFun rest f

mutual

/-- Collect every function definition of a statement (the snapshot). -/
def collectFunsS : Stmt → List (String × FunInfo)
  | .block ss => collectFunsL ss
  | .varDecl _ _ => []
  | .assign _ _ => []
  | .ifStmt _ body => collectFunsL body
  | .switch _ cs d => collectFunsC cs ++ collectFunsO d
  | .forLoop i _ p b => collectFunsL i ++ collectFunsL p ++ collectFunsL b
  | .funDef f params rets body => (f, ⟨params, rets, body⟩) :: collectFunsL body
  | .instr _ => []
  | .label _ => []
  | .stackAssign _ => []

/-- Collect the function definitions of a statement list. -/
def collectFunsL : StmtList → List (String × FunInfo)
  | .nil => []
  | .cons st ss => collectFunsS st ++ collectFunsL ss

/-- Collect the function definitions of switch cases. -/
def collectFunsC : CaseList → List (String × FunInfo)
  | .nil => []
  | .cons _ _ body rest => collectFunsL body ++ collectFunsC rest

/-- Collect the function definitions of an optional block. -/
def collectFunsO : OptBlock → List (String × FunInfo)
  | .none => []
  | .some ss => collectFunsL ss

end

/-- Number of argument expressions. -/
def elen : ExprList → Nat
  | .nil => 0
  | .cons _ es => elen es + 1

/-- Argument expressions as a plain list. -/
def toListE : ExprList → List Expr
  | .nil => []
  | .cons e es => e :: toListE es

/-- Append of statement lists. -/
def appSL : StmtList → StmtList → StmtList
  | .nil, t => t
  | .cons s ss, t => .cons s (appSL ss t)

/-- An argument is movable (substituted directly, no temporary) when it is
an identifier; a `BodyCopier` replacement maps names to names, so only
identifier arguments can be substituted through it.  Other arguments get
one freshly dispensed temporary each, declared before the expansion in
evaluation order (spec section 4.5 step 2). -/
def mkArgBinds (used : List String) :
    List (TypedName × Expr) → StmtList × List (String × String) × List String
  | [] => (.nil, [], used)
  | ((pn, pty), arg) :: rest =>
    match arg with
    | .ident u =>
      let r := mkArgBinds used rest
      (r.1, (pn, u) :: r.2.1, r.2.2)
    | _ =>
      let t := newName used pn
      let r := mkArgBinds t.2 rest
      (.cons (.varDecl [(t.1, pty)] (Option.some arg)) r.1, (pn, t.1) :: r.2.1, r.2.2)

/-- Expand one call to `f` (snapshot entry `fi`) if and only if the callee
is not in the recursion guard and the argument arity matches; a single
return value is required in expression position (spec section 4.5 steps
2 to 5): bind non-movable arguments to fresh temporaries, declare one fresh
return temporary, copy the callee body with the parameter and return
substitutions, and replace the call by a reference to the return temporary.
If any condition fails, the call is left structurally unchanged. -/
def tryExpand (guard : List String) (f : String) (fi : FunInfo)
    (hoisted : StmtList) (args : ExprList) (used : List String) :
    StmtList × Expr × List String :=
  match fi.rets with
  | [(rn, rty)] =>
    if f ∉ guard ∧ fi.params.length = elen args then
      let ab := mkArgBinds used (fi.params.zip (toListE args))
      let rt := newName ab.2.2 rn
      let retDecl : Stmt := .varDecl [(rt.1, rty)] (Option.some (.lit "0" rty))
      let bc := bodyCopyStmts rt.2 f ((rn, rt.1) :: ab.2.1) fi.body
      (appSL hoisted (appSL ab.1 (.cons retDecl bc.1)), .ident rt.1, bc.2.1)
    else (hoisted, .funCall f args, used)
  | _ => (hoisted, .funCall f args, used)

mutual

/-- The FullInliner expression visit: returns the statements to hoist to
the enclosing block layer, the replacement expression, and the dispenser
state. -/
def inlExpr (env : List (String × FunInfo)) (guard : List String) (used : List String) :
    Expr → Except InlineError (StmtList × Expr × List String)
  | .lit v ty => .ok (.nil, .lit v ty, used)
  | .ident n => .ok (.nil, .ident n, used)
  | .funInstr op args =>
    match inlArgs env guard used args with
    | .error e => .error e
    | .ok r => .ok (r.1, .funInstr op r.2.1, r.2.2)
  | .funCall f args =>
    match inlArgs env guard used args with
    | .error e => .error e
    | .ok r =>
      match lookupFun env f with
      | Option.some fi => .ok (tryExpand guard f fi r.1 r.2.1 r.2.2)
      | Option.none => .ok (r.1, .funCall f r.2.1, r.2.2)

/-- Process an argument list, concatenating hoisted statements in
evaluation order. -/
def inlArgs (env : List (String × FunInfo)) (guard : List String) (used : List String) :
    ExprList → Except InlineError (StmtList × ExprList × List String)
  | .nil => .ok (.nil, .nil, used)
  | .cons e es =>
    match inlExpr env guard used e with
    | .error e1 => .error e1
    | .ok r1 =>
      match inlArgs env guard r1.2.2 es with
      | .error e2 => .error e2
      | .ok r2 => .ok (appSL r1.1 r2.1, .cons r1.2.1 r2.2.1, r2.2.2)

end

mutual

/-- The FullInliner statement visit: statements to prefix at the block
layer, the rewritten statement, and the dispenser state.  `Instruction`,
`Label` and `StackAssignment` are fatal internal-invariant violations
(`solAssert(false, "")` in `FullInliner.h`). -/
def inlStmt (env : List (String × FunInfo)) (guard : List String) (used : List String) :
    Stmt → Except InlineError (StmtList × Stmt × List String)
  | .varDecl names val =>
    match val with
    | Option.none => .ok (.nil, .varDecl names Option.none, used)
    | Option.some e =>
      match inlExpr env guard used e with
      | .error e1 => .error e1
      | .ok r => .ok (r.1, .varDecl names (Option.some r.2.1), r.2.2)
  | .assign ts val =>
    match inlExpr env guard used val with
    | .error e1 => .error e1
    | .ok r => .ok (r.1, .assign ts r.2.1, r.2.2)
  | .block ss =>
    match inlStmts env guard used ss with
    | .error e1 => .error e1
    | .ok r => .ok (.nil, .block r.1, r.2)
  | .ifStmt c body =>
    match inlExpr env guard used c with
    | .error e1 => .error e1
    | .ok rc =>
      match inlStmts env guard rc.2.2 body with
      | .error e2 => .error e2
      | .ok rb => .ok (rc.1, .ifStmt rc.2.1 rb.1, rb.2)
  | .switch c cs d =>
    match inlExpr env guard used c with
    | .error e1 => .error e1
    | .ok rc =>
      match inlCases env guard rc.2.2 cs with
      | .error e2 => .error e2
      | .ok rcs =>
        match inlOpt env guard rcs.2 d with
        | .error e3 => .error e3
        | .ok rd => .ok (rc.1, .switch rc.2.1 rcs.1 rd.1, rd.2)
  | .forLoop i c p b =>
    match inlStmts env guard used i with
    | .error e1 => .error e1
    | .ok ri =>
      match inlStmts env guard ri.2 p with
      | .error e2 => .error e2
      | .ok rp =>
        match inlStmts env guard rp.2 b with
        | .error e3 => .error e3
        | .ok rb => .ok (.nil, .forLoop ri.1 c rp.1 rb.1, rb.2)
  | .funDef g params rets body =>
    match inlStmts env (g :: guard) used body with
    | .error e1 => .error e1
    | .ok r => .ok (.nil, .funDef g params rets r.1, r.2)
  | .instr _ => .error .invariantViolation
  | .label _ => .error .invariantViolation
  | .stackAssign _ => .error .invariantViolation

/-- Process the statements of a block, splicing each statement's hoisted
statements directly above it. -/
def inlStmts (env : List (String × FunInfo)) (guard : List String) (used : List String) :
    StmtList → Except InlineError (StmtList × List String)
  | .nil => .ok (.nil, used)
  | .cons st ss =>
    match inlStmt env guard used st with
    | .error e1 => .error e1
    | .ok r1 =>
      match inlStmts env guard r1.2.2 ss with
      | .error e2 => .error e2
      | .ok r2 => .ok (appSL r1.1 (.cons r1.2.1 r2.1), r2.2)

/-- Process switch cases. -/
def inlCases (env : List (String × FunInfo)) (guard : List String) (used : List String) :
    CaseList → Except InlineError (CaseList × List String)
  | .nil => .ok (.nil, used)
  | .cons v ty body rest =>
    match inlStmts env guard used body with
    | .error e1 => .error e1
    | .ok rb =>
      match inlCases env guard rb.2 rest with
      | .error e2 => .error e2
      | .ok rr => .ok (.cons v ty rb.1 rr.1, rr.2)

/-- Process the optional default block. -/
def inlOpt (env : List (String × FunInfo)) (guard : List String) (used : List String) :
    OptBlock → Except InlineError (OptBlock × List String)
  | .none => .ok (.none, used)
  | .some ss =>
    match inlStmts env guard used ss with
    | .error e1 => .error e1
    | .ok r => .ok (.some r.1, r.2)

end

/-- `Modelled from the spec:` one application of the FullInliner pass
(`FullInliner.cpp` is outside the excerpt): take the frozen snapshot of the
input as the function-lookup source, seed the dispenser with every declared
name, and process the tree with an empty recursion guard. -/
def inlinerPass (prog : StmtList) : Except InlineError StmtList :=
  match inlStmts (collectFunsL prog) [] (declL prog) prog with
  | .error e => .error e
  | .ok r => .ok r.1

/-- Repeated application of the pass (an erroring pass leaves the tree
unchanged). -/
def inlinerIter : Nat → StmtList → StmtList
  | 0, prog => prog
  | n + 1, prog =>
    match inlinerPass (inlinerIter n prog) with
    | .ok out => out
    | .error _ => inlinerIter n prog

/-- Repeated application of the pass eventually stops changing the tree. -/
def ReachesFixedPoint (prog : StmtList) : Prop :=
  ∃ n, inlinerIter (n + 1) prog = inlinerIter n prog

end Solidity

namespace Solidity

/-- A call to a function in the recursion guard is never expanded: the
`tryExpand` result keeps the call node structurally unchanged. -/
theorem tryExpand_guarded (guard : List String) (f : String) (fi : FunInfo)
    (hoisted : StmtList) (args : ExprList) (used : List String) (hf : f ∈ guard) :
    tryExpand guard f fi hoisted args used = (hoisted, .funCall f args, used) := by
  unfold tryExpand
  obtain ⟨ps, rs, bd⟩ := fi
  dsimp only
  cases rs with
  | nil => rfl
  | cons hd tl =>
    obtain ⟨rn, rty⟩ := hd
    cases tl with
    | nil =>
      have hcond : ¬(f ∉ guard ∧ ps.length = elen args) := fun hc => hc.1 hf
      simp [hcond]
    | cons hd2 tl2 => rfl

/-! ### Claim theorems for the FullInliner -/

/-- C7: the FullInliner visitor raises a fatal internal-invariant failure
(`solAssert(false, "")`, modelled as `Except.error`) on `Instruction`,
`Label` and `StackAssignment` nodes; it never recovers or returns a result
for them, so these node kinds are never treated as inlinable. -/
theorem fullInliner_asserts_on_raw_nodes (env : List (String × FunInfo))
    (guard : List String) (used : List String) (op n m : String) :
    inlStmt env guard used (.instr op) = .error .invariantViolation ∧
    inlStmt env guard used (.label n) = .error .invariantViolation ∧
    inlStmt env guard used (.stackAssign m) = .error .invariantViolation :=
  ⟨rfl, rfl, rfl⟩

/-- C8: the FullInliner expression visit returns an empty list of hoisted
statements for every `Literal` node and every `Identifier` node (the
`return {}` bodies in `FullInliner.h`). -/
theorem fullInliner_leaves_no_hoisted (env : List (String × FunInfo))
    (guard : List String) (used : List String) (v ty n : String) :
    inlExpr env guard used (.lit v ty) = .ok (.nil, .lit v ty, used) ∧
    inlExpr env guard used (.ident n) = .ok (.nil, .ident n, used) :=
  ⟨rfl, rfl⟩

/-- C9: both passes are deterministic — two runs on identical input produce
identical output trees. -/
theorem passes_deterministic :
    (∀ (prog out1 out2 : StmtList),
      out1 = disambiguate prog → out2 = disambiguate prog → out1 = out2) ∧
    (∀ (prog : StmtList) (r1 r2 : Except InlineError StmtList),
      r1 = inlinerPass prog → r2 = inlinerPass prog → r1 = r2) := by
  constructor
  · intro prog out1 out2 h1 h2
    rw [h1, h2]
  · intro prog r1 r2 h1 h2
    rw [h1, h2]

/-- Witness for C9 at the `variables` test program. -/
theorem passes_deterministic_witness :
    disambiguate progA = disambiguate progA ∧ inlinerPass progA = inlinerPass progA :=
  ⟨passes_deterministic.1 progA (disambiguate progA) (disambiguate progA) rfl rfl,
    passes_deterministic.2 progA (inlinerPass progA) (inlinerPass progA) rfl rfl⟩

/-- C10: `BodyCopier` stores the caller's replacement map by value
(`std::map<std::string, std::string> m_variableReplacements`, initialized
from a const reference), so extensions of the copier's map made while
copying a body never modify the caller's map — it is unchanged after every
body copy — while the copier's own map genuinely grows (shown at a body
declaring one variable). -/
theorem bodyCopier_caller_map_unchanged :
    (∀ (m : List (String × String)) (disp : NameDispenser) (pfx : String) (b : StmtList),
      (callerCopyBody m disp pfx b).2.2 = m) ∧
    (callerCopyBody [] ⟨[]⟩ "f"
      (sl1 (.varDecl [("x", "u256")] Option.none))).2.1.m_variableReplacements ≠ [] :=
  ⟨fun _ _ _ _ => rfl, by decide⟩

end Solidity

namespace Solidity

/-- C6 (amended): the recursion guard. A call to a function in the
currently-expanding set is never expanded — the call node is left
structurally unchanged, only its arguments are processed — and a function
definition's own name is in the guard for the whole processing of its body,
so a function never inlines into its own body. -/
theorem fullInliner_recursion_guard :
    (∀ (env : List (String × FunInfo)) (guard : List String) (used : List String)
      (f : String) (args : ExprList) (r : StmtList × ExprList × List String),
      f ∈ guard → inlArgs env guard used args = .ok r →
      inlExpr env guard used (.funCall f args) = .ok (r.1, .funCall f r.2.1, r.2.2)) ∧
    (∀ (env : List (String × FunInfo)) (guard : List String) (used : List String)
      (g : String) (params rets : List TypedName) (body : StmtList)
      (r : StmtList × List String),
      inlStmts env (g :: guard) used body = .ok r →
      inlStmt env guard used (.funDef g params rets body) =
        .ok (.nil, .funDef g params rets r.1, r.2)) := by
  constructor
  · intro env guard used f args r hf hargs
    have heq : inlExpr env guard used (.funCall f args) =
        (match inlArgs env guard used args with
         | .error e1 => .error e1
         | .ok r =>
           match lookupFun env f with
           | Option.some fi => Except.ok (tryExpand guard f fi r.1 r.2.1 r.2.2)
           | Option.none => Except.ok (r.1, .funCall f r.2.1, r.2.2)) := rfl
    rw [heq, hargs]
    show (match lookupFun env f with
      | Option.some fi => Except.ok (tryExpand guard f fi r.1 r.2.1 r.2.2)
      | Option.none => Except.ok (r.1, Expr.funCall f r.2.1, r.2.2)) = _
    cases hl : lookupFun env f with
    | some fi =>
      show Except.ok (tryExpand guard f fi r.1 r.2.1 r.2.2) =
        Except.ok (r.1, Expr.funCall f r.2.1, r.2.2)
      rw [tryExpand_guarded guard f fi r.1 r.2.1 r.2.2 hf]
    | none => rfl
  · intro env guard used g params rets body r hbody
    have heq : inlStmt env guard used (.funDef g params rets body) =
        (match inlStmts env (g :: guard) used body with
         | .error e1 => .error e1
         | .ok r => Except.ok (StmtList.nil, Stmt.funDef g params rets r.1, r.2)) := rfl
    rw [heq, hbody]

/-- Witness for the amended C6 at a guarded zero-argument call and an empty
function body. -/
theorem fullInliner_recursion_guard_witness :
    "f" ∈ ["f"] ∧
    inlExpr [] ["f"] [] (.funCall "f" .nil) = .ok (.nil, .funCall "f" .nil, []) ∧
    inlStmt [] [] [] (.funDef "f" [] [] .nil) = .ok (.nil, .funDef "f" [] [] .nil, []) := by
  refine ⟨by decide, ?_, ?_⟩
  · exact fullInliner_recursion_guard.1 [] ["f"] [] "f" .nil (.nil, .nil, []) (by decide) rfl
  · exact fullInliner_recursion_guard.2 [] [] [] "f" [] [] .nil (.nil, []) rfl

/-! ### The FullInliner does not reach a fixed point on recursive functions
called from outside

A self-recursive function `f` whose guarded self-call survives inside its
body is re-inlined at every outer call site on every application of the
pass; the spliced copy contains a fresh call to `f` outside `f`, so every
application strictly grows the tree. -/

/-- Body of the self-recursive function: `r := f()`. -/
def fBody : StmtList := sl1 (.assign ["r"] (.funCall "f" .nil))

/-- Snapshot entry of `f`: no parameters, one return `r`. -/
def fInfo : FunInfo := ⟨[], [("r", "u256")], fBody⟩

/-- The definition `function f() -> r { r := f() }`. -/
def defF : Stmt := .funDef "f" [] [("r", "u256")] fBody

/-- The snapshot of any program whose only function is `f`. -/
def env0 : List (String × FunInfo) := [("f", fInfo)]

/-- `{ function f() -> r { r := f() }  let x := f() }`: a self-recursive
function called once from outside. -/
def progRec : StmtList :=
  sl2 defF (.varDecl [("x", "u256")] (Option.some (.funCall "f" .nil)))

/-- Statements the pass maps to themselves (no calls). -/
def benign : Stmt → Bool
  | .varDecl [_] Option.none => true
  | .varDecl [_] (Option.some (.lit _ _)) => true
  | .varDecl [_] (Option.some (.ident _)) => true
  | .assign [_] (.ident _) => true
  | _ => false

/-- Statements whose right-hand side is the bare call `f()`. -/
def isCallF : Stmt → Bool
  | .varDecl [_] (Option.some (.funCall g .nil)) => g == "f"
  | .assign [_] (.funCall g .nil) => g == "f"
  | _ => false

/-- Every statement is benign or a call to `f`. -/
def shapeL : StmtList → Bool
  | .nil => true
  | .cons st ss => (benign st || isCallF st) && shapeL ss

/-- Number of calls to `f`. -/
def countF : StmtList → Nat
  | .nil => 0
  | .cons st ss => (if isCallF st then 1 else 0) + countF ss

/-- The invariant preserved by the pass on the counterexample: the program
is the unchanged definition of `f` followed by benign statements and at
least one top-level call to `f`. -/
def Shape (prog : StmtList) : Prop :=
  ∃ rest, prog = .cons defF rest ∧ shapeL rest = true ∧ 1 ≤ countF rest

theorem collectFunsS_shape (st : Stmt) (h : (benign st || isCallF st) = true) :
    collectFunsS st = [] := by
  cases st with
  | varDecl a b => rfl
  | assign a b => rfl
  | block a => simp [benign, isCallF] at h
  | ifStmt a b => simp [benign, isCallF] at h
  | switch a b c => simp [benign, isCallF] at h
  | forLoop a b c d => simp [benign, isCallF] at h
  | funDef a b c d => simp [benign, isCallF] at h
  | instr a => simp [benign, isCallF] at h
  | label a => simp [benign, isCallF] at h
  | stackAssign a => simp [benign, isCallF] at h

theorem collectFunsL_shape : ∀ (N : Nat) (rest : StmtList), slen rest ≤ N →
    shapeL rest = true → collectFunsL rest = [] := by
  intro N
  induction N with
  | zero =>
    intro rest hsz hsh
    cases rest with
    | nil => rfl
    | cons st ss => simp [slen] at hsz
  | succ N ih =>
    intro rest hsz hsh
    cases rest with
    | nil => rfl
    | cons st ss =>
      have hx : shapeL (StmtList.cons st ss) = ((benign st || isCallF st) && shapeL ss) := rfl
      rw [hx, Bool.and_eq_true] at hsh
      have h1 : collectFunsL (StmtList.cons st ss) = collectFunsS st ++ collectFunsL ss := rfl
      rw [h1, collectFunsS_shape st hsh.1, ih ss (by simp [slen] at hsz; omega) hsh.2]
      rfl

theorem collectFuns_progShape (rest : StmtList) (h : shapeL rest = true) :
    collectFunsL (.cons defF rest) = env0 := by
  have h1 : collectFunsL (.cons defF rest) =
      (("f", fInfo) :: collectFunsL fBody) ++ collectFunsL rest := rfl
  rw [h1, collectFunsL_shape (slen rest) rest (le_refl _) h]
  rfl

/-- Processing the definition of `f` leaves it unchanged: the self-call in
its body is protected by the recursion guard. -/
theorem inl_defF (used : List String) :
    inlStmt env0 [] used defF = .ok (.nil, defF, used) := rfl

end Solidity

namespace Solidity

theorem inl_benign (st : Stmt) (used : List String) (h : benign st = true) :
    inlStmt env0 [] used st = .ok (.nil, st, used) := by
  cases st with
  | varDecl names val =>
    cases names with
    | nil => simp [benign] at h
    | cons nt names' =>
      cases names' with
      | cons a b => simp [benign] at h
      | nil =>
        cases val with
        | none => rfl
        | some e =>
          cases e with
          | lit v ty => rfl
          | ident n => rfl
          | funCall f args => simp [benign] at h
          | funInstr op args => simp [benign] at h
  | assign ts val =>
    cases ts with
    | nil => simp [benign] at h
    | cons t ts' =>
      cases ts' with
      | cons a b => simp [benign] at h
      | nil =>
        cases val with
        | lit v ty => simp [benign] at h
        | ident n => rfl
        | funCall f args => simp [benign] at h
        | funInstr op args => simp [benign] at h
  | block a => simp [benign] at h
  | ifStmt a b => simp [benign] at h
  | switch a b c => simp [benign] at h
  | forLoop a b c d => simp [benign] at h
  | funDef a b c d => simp [benign] at h
  | instr a => simp [benign] at h
  | label a => simp [benign] at h
  | stackAssign a => simp [benign] at h

theorem isCallF_shape (st : Stmt) (h : isCallF st = true) :
    (∃ t, st = .assign [t] (.funCall "f" .nil)) ∨
    (∃ x ty, st = .varDecl [(x, ty)] (Option.some (.funCall "f" .nil))) := by
  cases st with
  | varDecl names val =>
    cases names with
    | nil => simp [isCallF] at h
    | cons nt names' =>
      cases names' with
      | cons a b => simp [isCallF] at h
      | nil =>
        cases val with
        | none => simp [isCallF] at h
        | some e =>
          cases e with
          | lit v ty => simp [isCallF] at h
          | ident n => simp [isCallF] at h
          | funInstr op args => simp [isCallF] at h
          | funCall g args =>
            cases args with
            | cons a b => simp [isCallF] at h
            | nil =>
              have hg : g = "f" := by
                have hx : isCallF (.varDecl [nt] (Option.some (.funCall g .nil))) =
                    (g == "f") := rfl
                rw [hx] at h
                exact eq_of_beq h
              obtain ⟨x, ty⟩ := nt
              exact Or.inr ⟨x, ty, by rw [hg]⟩
  | assign ts val =>
    cases ts with
    | nil => simp [isCallF] at h
    | cons t ts' =>
      cases ts' with
      | cons a b => simp [isCallF] at h
      | nil =>
        cases val with
        | lit v ty => simp [isCallF] at h
        | ident n => simp [isCallF] at h
        | funInstr op args => simp [isCallF] at h
        | funCall g args =>
          cases args with
          | cons a b => simp [isCallF] at h
          | nil =>
            have hg : g = "f" := by
              have hx : isCallF (.assign [t] (.funCall g .nil)) = (g == "f") := rfl
              rw [hx] at h
              exact eq_of_beq h
            exact Or.inl ⟨t, by rw [hg]⟩
  | block a => simp [isCallF] at h
  | ifStmt a b => simp [isCallF] at h
  | switch a b c => simp [isCallF] at h
  | forLoop a b c d => simp [isCallF] at h
  | funDef a b c d => simp [isCallF] at h
  | instr a => simp [isCallF] at h
  | label a => simp [isCallF] at h
  | stackAssign a => simp [isCallF] at h

/-- Expanding the top-level call `t := f()`: the return temporary is
declared, the copied body re-contains the call `f()`, and the original
statement refers to the temporary. -/
theorem inl_callF_assign (t : String) (used : List String) :
    inlStmt env0 [] used (.assign [t] (.funCall "f" .nil)) =
      .ok (.cons (.varDecl [((newName used "r").1, "u256")] (Option.some (.lit "0" "u256")))
            (.cons (.assign [(newName used "r").1] (.funCall "f" .nil)) .nil),
          .assign [t] (.ident (newName used "r").1), (newName used "r").2) := rfl

/-- Expanding the top-level call `let x := f()`. -/
theorem inl_callF_varDecl (x ty : String) (used : List String) :
    inlStmt env0 [] used (.varDecl [(x, ty)] (Option.some (.funCall "f" .nil))) =
      .ok (.cons (.varDecl [((newName used "r").1, "u256")] (Option.some (.lit "0" "u256")))
            (.cons (.assign [(newName used "r").1] (.funCall "f" .nil)) .nil),
          .varDecl [(x, ty)] (Option.some (.ident (newName used "r").1)), (newName used "r").2) := rfl

end Solidity

namespace Solidity

/-- One pass over a shaped statement list: it succeeds, keeps the shape,
preserves the number of calls to `f`, and adds two statements per call. -/
theorem step_rest : ∀ (N : Nat) (rest : StmtList) (used : List String), slen rest ≤ N →
    shapeL rest = true →
    ∃ out used', inlStmts env0 [] used rest = .ok (out, used') ∧
      shapeL out = true ∧ countF out = countF rest ∧
      slen out = slen rest + 2 * countF rest := by
  intro N
  induction N with
  | zero =>
    intro rest used hsz hsh
    cases rest with
    | nil => exact ⟨.nil, used, rfl, rfl, rfl, rfl⟩
    | cons st ss => simp [slen] at hsz
  | succ N ih =>
    intro rest used hsz hsh
    cases rest with
    | nil => exact ⟨.nil, used, rfl, rfl, rfl, rfl⟩
    | cons st ss =>
      have hsz' : slen ss ≤ N := by simp [slen] at hsz; omega
      have hx : shapeL (StmtList.cons st ss) = ((benign st || isCallF st) && shapeL ss) := rfl
      rw [hx, Bool.and_eq_true] at hsh
      by_cases hc : isCallF st = true
      · rcases isCallF_shape st hc with ⟨t, rfl⟩ | ⟨x, ty, rfl⟩
        · obtain ⟨out', used', hih, hsho, hcnt, hlen⟩ := ih ss (newName used "r").2 hsz' hsh.2
          refine ⟨.cons (.varDecl [((newName used "r").1, "u256")]
              (Option.some (.lit "0" "u256")))
            (.cons (.assign [(newName used "r").1] (.funCall "f" .nil))
              (.cons (.assign [t] (.ident (newName used "r").1)) out')), used', ?_, ?_, ?_, ?_⟩
          · have heq : inlStmts env0 [] used (.cons (.assign [t] (.funCall "f" .nil)) ss) =
                (match inlStmt env0 [] used (.assign [t] (.funCall "f" .nil)) with
                 | .error e1 => .error e1
                 | .ok r1 =>
                   match inlStmts env0 [] r1.2.2 ss with
                   | .error e2 => .error e2
                   | .ok r2 => .ok (appSL r1.1 (.cons r1.2.1 r2.1), r2.2)) := rfl
            rw [heq, inl_callF_assign t used]
            dsimp only
            rw [hih]
            rfl
          · have hsx : shapeL (.cons (.varDecl [((newName used "r").1, "u256")]
                (Option.some (.lit "0" "u256")))
              (.cons (.assign [(newName used "r").1] (.funCall "f" .nil))
                (.cons (.assign [t] (.ident (newName used "r").1)) out'))) =
                ((true || false) && ((false || true) && ((true || false) && shapeL out'))) := rfl
            rw [hsx, hsho]
            rfl
          · have hcx : countF (.cons (.varDecl [((newName used "r").1, "u256")]
                (Option.some (.lit "0" "u256")))
              (.cons (.assign [(newName used "r").1] (.funCall "f" .nil))
                (.cons (.assign [t] (.ident (newName used "r").1)) out'))) =
                0 + (1 + (0 + countF out')) := rfl
            have hcy : countF (.cons (.assign [t] (.funCall "f" .nil)) ss) =
                1 + countF ss := rfl
            rw [hcx, hcy]
            omega
          · have hlx : slen (.cons (.varDecl [((newName used "r").1, "u256")]
                (Option.some (.lit "0" "u256")))
              (.cons (.assign [(newName used "r").1] (.funCall "f" .nil))
                (.cons (.assign [t] (.ident (newName used "r").1)) out'))) =
                slen out' + 3 := rfl
            have hly : slen (.cons (.assign [t] (.funCall "f" .nil)) ss) = slen ss + 1 := rfl
            have hcy : countF (.cons (.assign [t] (.funCall "f" .nil)) ss) =
                1 + countF ss := rfl
            rw [hlx, hly, hcy]
            omega
        · obtain ⟨out', used', hih, hsho, hcnt, hlen⟩ := ih ss (newName used "r").2 hsz' hsh.2
          refine ⟨.cons (.varDecl [((newName used "r").1, "u256")]
              (Option.some (.lit "0" "u256")))
            (.cons (.assign [(newName used "r").1] (.funCall "f" .nil))
              (.cons (.varDecl [(x, ty)] (Option.some (.ident (newName used "r").1))) out')),
            used', ?_, ?_, ?_, ?_⟩
          · have heq : inlStmts env0 [] used
                (.cons (.varDecl [(x, ty)] (Option.some (.funCall "f" .nil))) ss) =
                (match inlStmt env0 [] used (.varDecl [(x, ty)] (Option.some (.funCall "f" .nil))) with
                 | .error e1 => .error e1
                 | .ok r1 =>
                   match inlStmts env0 [] r1.2.2 ss with
                   | .error e2 => .error e2
                   | .ok r2 => .ok (appSL r1.1 (.cons r1.2.1 r2.1), r2.2)) := rfl
            rw [heq, inl_callF_varDecl x ty used]
            dsimp only
            rw [hih]
            rfl
          · have hsx : shapeL (.cons (.varDecl [((newName used "r").1, "u256")]
                (Option.some (.lit "0" "u256")))
              (.cons (.assign [(newName used "r").1] (.funCall "f" .nil))
                (.cons (.varDecl [(x, ty)] (Option.some (.ident (newName used "r").1))) out'))) =
                ((true || false) && ((false || true) && ((true || false) && shapeL out'))) := rfl
            rw [hsx, hsho]
            rfl
          · have hcx : countF (.cons (.varDecl [((newName used "r").1, "u256")]
                (Option.some (.lit "0" "u256")))
              (.cons (.assign [(newName used "r").1] (.funCall "f" .nil))
                (.cons (.varDecl [(x, ty)] (Option.some (.ident (newName used "r").1))) out'))) =
                0 + (1 + (0 + countF out')) := rfl
            have hcy : countF (.cons (.varDecl [(x, ty)]
                (Option.some (.funCall "f" .nil))) ss) = 1 + countF ss := rfl
            rw [hcx, hcy]
            omega
          · have hlx : slen (.cons (.varDecl [((newName used "r").1, "u256")]
                (Option.some (.lit "0" "u256")))
              (.cons (.assign [(newName used "r").1] (.funCall "f" .nil))
                (.cons (.varDecl [(x, ty)] (Option.some (.ident (newName used "r").1))) out'))) =
                slen out' + 3 := rfl
            have hly : slen (.cons (.varDecl [(x, ty)]
                (Option.some (.funCall "f" .nil))) ss) = slen ss + 1 := rfl
            have hcy : countF (.cons (.varDecl [(x, ty)]
                (Option.some (.funCall "f" .nil))) ss) = 1 + countF ss := rfl
            rw [hlx, hly, hcy]
            omega
      · have h1 := hsh.1
        have hb : benign st = true := by
          cases hx : benign st with
          | true => rfl
          | false =>
            rw [hx] at h1
            cases hy : isCallF st with
            | true => exact absurd hy hc
            | false =>
              rw [hy] at h1
              exact absurd h1 (by decide)
        obtain ⟨out', used', hih, hsho, hcnt, hlen⟩ := ih ss used hsz' hsh.2
        refine ⟨.cons st out', used', ?_, ?_, ?_, ?_⟩
        · have heq : inlStmts env0 [] used (.cons st ss) =
              (match inlStmt env0 [] used st with
               | .error e1 => .error e1
               | .ok r1 =>
                 match inlStmts env0 [] r1.2.2 ss with
                 | .error e2 => .error e2
                 | .ok r2 => .ok (appSL r1.1 (.cons r1.2.1 r2.1), r2.2)) := rfl
          rw [heq, inl_benign st used hb]
          dsimp only
          rw [hih]
          rfl
        · have hsx : shapeL (.cons st out') = ((benign st || isCallF st) && shapeL out') := rfl
          rw [hsx, hsho, hsh.1]
          rfl
        · have hcx : countF (.cons st out') = (if isCallF st then 1 else 0) + countF out' := rfl
          have hcy : countF (.cons st ss) = (if isCallF st then 1 else 0) + countF ss := rfl
          rw [hcx, hcy]
          omega
        · have hcf : isCallF st = false := by
            cases hx : isCallF st
            · rfl
            · exact absurd hx hc
          have hif : (if isCallF st then 1 else 0) = 0 := by simp [hcf]
          have hlx : slen (.cons st out') = slen out' + 1 := rfl
          have hly : slen (.cons st ss) = slen ss + 1 := rfl
          have hcy : countF (.cons st ss) = (if isCallF st then 1 else 0) + countF ss := rfl
          rw [hlx, hly, hcy, hif]
          omega

end Solidity

namespace Solidity

/-- One application of the pass on a shaped program succeeds, preserves the
shape, and strictly grows the tree (two statements per remaining call to
`f`, of which there is at least one). -/
theorem pass_shape (prog : StmtList) (h : Shape prog) :
    ∃ prog', inlinerPass prog = .ok prog' ∧ Shape prog' ∧ slen prog < slen prog' := by
  obtain ⟨rest, rfl, hsh, hcf⟩ := h
  have henv := collectFuns_progShape rest hsh
  obtain ⟨out, used', hrun, hsho, hcnt, hlen⟩ :=
    step_rest (slen rest) rest
      ((StmtList.nil, defF, declL (.cons defF rest)).2.2) (le_refl _) hsh
  refine ⟨.cons defF out, ?_, ⟨out, rfl, hsho, by omega⟩, ?_⟩
  · have heq : inlinerPass (.cons defF rest) =
        (match inlStmts (collectFunsL (.cons defF rest)) [] (declL (.cons defF rest))
            (.cons defF rest) with
         | .error e => .error e
         | .ok r => .ok r.1) := rfl
    rw [heq, henv]
    have heq2 : inlStmts env0 [] (declL (.cons defF rest)) (.cons defF rest) =
        (match inlStmt env0 [] (declL (.cons defF rest)) defF with
         | .error e1 => .error e1
         | .ok r1 =>
           match inlStmts env0 [] r1.2.2 rest with
           | .error e2 => .error e2
           | .ok r2 => .ok (appSL r1.1 (.cons r1.2.1 r2.1), r2.2)) := rfl
    rw [heq2, inl_defF (declL (.cons defF rest))]
    dsimp only
    rw [hrun]
    rfl
  · have h1 : slen (StmtList.cons defF out) = slen out + 1 := rfl
    have h2 : slen (StmtList.cons defF rest) = slen rest + 1 := rfl
    omega

/-- Every iterate of the pass on the counterexample keeps the shape. -/
theorem iter_shape (n : Nat) : Shape (inlinerIter n progRec) := by
  induction n with
  | zero =>
    refine ⟨.cons (.varDecl [("x", "u256")] (Option.some (.funCall "f" .nil))) .nil,
      rfl, by decide, by decide⟩
  | succ n ih =>
    obtain ⟨prog', hp, hs, _⟩ := pass_shape _ ih
    have heq : inlinerIter (n + 1) progRec =
        (match inlinerPass (inlinerIter n progRec) with
         | .ok out => out
         | .error _ => inlinerIter n progRec) := rfl
    rw [heq, hp]
    exact hs

/-- Every application of the pass on the counterexample strictly grows the
tree. -/
theorem iter_grows (n : Nat) :
    slen (inlinerIter n progRec) < slen (inlinerIter (n + 1) progRec) := by
  obtain ⟨prog', hp, _, hlt⟩ := pass_shape _ (iter_shape n)
  have heq : inlinerIter (n + 1) progRec =
      (match inlinerPass (inlinerIter n progRec) with
       | .ok out => out
       | .error _ => inlinerIter n progRec) := rfl
  rw [heq, hp]
  exact hlt

/-- C6 counterexample: on `{ function f() -> r { r := f() }  let x := f() }`
repeated application of the FullInliner never reaches a fixed point — every
application strictly grows the tree, because the call to `f` outside `f` is
re-expanded each time and the spliced copy of `f`'s body contains a fresh
outside call to `f`. -/
theorem fullInliner_no_fixed_point : ¬ ReachesFixedPoint progRec := by
  intro h
  obtain ⟨n, hn⟩ := h
  have hg := iter_grows n
  rw [hn] at hg
  exact lt_irrefl _ hg

end Solidity
